import Mathlib

/-!
Shallow embedding of `desiutil.bitmask` (file `py/desiutil/bitmask.py`):
the `_MaskBit` value class and the `BitMask` registry class, together with
theorems checking the natural-language specification against this code.

Machine integers: Python integers are unbounded, so bit values are `Nat`.
Python exceptions are modelled by an explicit error type and `Except`.
The Python `dict` used for `BitMask._bits` (insertion-ordered, unique keys,
in-place overwrite) is modelled by an association list with an
insert-or-replace operation.  Extra-attribute mappings carry string values
(the only value kind exercised by the repository); their keys are what the
validation logic inspects.
-/

namespace Desiutil

/-- Python exceptions raised by the bitmask module: `AttributeError`
(extra key already in use), `ValueError` (extra values not a dict) and
`KeyError` (missing dict key). -/
inductive PyError where
  | attributeError (msg : String)
  | valueError (msg : String)
  | keyError
deriving DecidableEq, Repr

/-- The spec groups the two construction-time failures (`ValueError` for a
non-mapping extras field, `AttributeError` for a reserved-key collision)
under the single name `ValidationError`. -/
def PyError.isValidationError : PyError → Bool
  | .attributeError _ => true
  | .valueError _ => true
  | .keyError => false

/-- A key of the dual-keyed `BitMask._bits` dict: Python stores both the
string bit name and the integer bit number as keys of one dict. -/
inductive BitsKey where
  | str (s : String)
  | num (n : Nat)
deriving DecidableEq, Repr

/-- Embedding of `_MaskBit`: an int whose value is `2**bitnum`, carrying
the attributes set in `_MaskBit.__new__` (`name`, `bitnum`, `mask`,
`comment`, `_extra`). -/
structure MaskBit where
  value : Nat
  name : String
  bitnum : Nat
  mask : Nat
  comment : String
  extra : List (String × String)
deriving DecidableEq, Repr

/-- The optional 4th element of a raw bit-definition entry: either a
mapping of extra attributes, or some non-mapping value (modelled with an
integer payload, as in the repository test `_baddef1`). -/
inductive Extra4 where
  | dict (pairs : List (String × String))
  | nonDict (v : Int)
deriving DecidableEq, Repr

/-- A raw entry of a definition table: `[bitname, bitnum, comment]` with an
optional 4th element (the construction input contract admits 3- or
4-element entries). -/
structure RawEntry where
  bitname : String
  bitnum : Nat
  comment : String
  extra4 : Option Extra4
deriving DecidableEq, Repr

/-- Lookup in an association list modelling a Python dict: first (unique)
matching key. -/
def dictFind {α : Type} [DecidableEq α] {β : Type} (d : List (α × β)) (k : α) :
    Option β :=
  (d.find? (fun p => p.1 = k)).map (fun p => p.2)

/-- Python dict assignment `d[k] = v`: overwrite in place when the key is
present, append otherwise.  Keys stay unique and insertion-ordered. -/
def dictInsert {α : Type} [DecidableEq α] {β : Type} (d : List (α × β)) (k : α)
    (v : β) : List (α × β) :=
  if d.any (fun p => p.1 = k) then
    d.map (fun p => if p.1 = k then (k, v) else p)
  else
    d ++ [(k, v)]

/-- Attribute names every Python 3 `int` instance already answers
`hasattr` for (CPython `dir(int)`): the dunder protocol methods plus the
numeric accessors.  `_MaskBit` subclasses `int`, so these are all "already
in use by int objects". -/
def intAttributes : List String :=
  ["__abs__", "__add__", "__and__", "__bool__", "__ceil__", "__class__",
   "__delattr__", "__dict__", "__dir__", "__divmod__", "__doc__", "__eq__",
   "__float__", "__floor__", "__floordiv__", "__format__", "__ge__",
   "__getattribute__", "__getnewargs__", "__gt__", "__hash__", "__index__",
   "__init__", "__init_subclass__", "__int__", "__invert__", "__le__",
   "__lshift__", "__lt__", "__mod__", "__module__", "__mul__", "__ne__",
   "__neg__", "__new__", "__or__", "__pos__", "__pow__", "__radd__",
   "__rand__", "__rdivmod__", "__reduce__", "__reduce_ex__", "__repr__",
   "__rfloordiv__", "__rlshift__", "__rmod__", "__rmul__", "__ror__",
   "__round__", "__rpow__", "__rrshift__", "__rshift__", "__rsub__",
   "__rtruediv__", "__rxor__", "__setattr__", "__sizeof__", "__str__",
   "__sub__", "__subclasshook__", "__truediv__", "__trunc__", "__xor__",
   "as_integer_ratio", "bit_length", "conjugate", "denominator",
   "from_bytes", "imag", "numerator", "real", "to_bytes"]

/-- Attributes a `_MaskBit` instance has when `__new__` reaches the loop
over the extra keys: everything an int has, plus the five attributes just
assigned (`name`, `bitnum`, `mask`, `comment`, `_extra`). -/
def maskBitBaseAttributes : List String :=
  intAttributes ++ ["name", "bitnum", "mask", "comment", "_extra"]

/-- The loop in `_MaskBit.__new__` over `extra.items()`: each key is
checked with `hasattr` against the attributes present so far (the base
attributes plus the extra keys already stored into `__dict__`); the first
colliding key is reported. -/
def firstCollision : List (String × String) → List String → Option String
  | [], _ => none
  | (k, _) :: rest, seen =>
    if k ∈ seen then some k else firstCollision rest (k :: seen)

/-- Embedding of `_MaskBit.__new__(cls, name, bitnum, comment, extra)`:
build the int-valued bit with its attributes, then walk the extra mapping,
raising `AttributeError` on a key that is already an attribute. -/
def MaskBit.new (name : String) (bitnum : Nat) (comment : String)
    (extra : List (String × String)) : Except PyError MaskBit :=
  match firstCollision extra maskBitBaseAttributes with
  | some key =>
    .error (.attributeError ("Bit " ++ name ++ " extra key \x27" ++ key ++
      "\x27 is already in use by int objects."))
  | none =>
    .ok { value := 2 ^ bitnum, name := name, bitnum := bitnum,
          mask := 2 ^ bitnum, comment := comment, extra := extra }

/-- Embedding of the `BitMask` object: the mask-family name `_name` and
the dual-keyed dict `_bits`. -/
structure BitMask where
  _name : String
  _bits : List (BitsKey × MaskBit)
deriving DecidableEq, Repr

/-- The loop body of `BitMask.__init__` over the entries of
`bitdefs[name]`: validate the optional 4th element (`ValueError` when it
is not a dict, the empty dict when absent), build the `_MaskBit`
(propagating its `AttributeError`), and store it under both the string
name and the integer bit number. -/
def buildBits (bits : List (BitsKey × MaskBit)) :
    List RawEntry → Except PyError (List (BitsKey × MaskBit))
  | [] => .ok bits
  | x :: rest =>
    match x.extra4 with
    | some (.nonDict _) =>
      .error (.valueError (x.bitname ++ " extra values should be a dict"))
    | some (.dict pairs) =>
      match MaskBit.new x.bitname x.bitnum x.comment pairs with
      | .error err => .error err
      | .ok mb =>
        buildBits (dictInsert (dictInsert bits (.str x.bitname) mb)
          (.num x.bitnum) mb) rest
    | none =>
      match MaskBit.new x.bitname x.bitnum x.comment [] with
      | .error err => .error err
      | .ok mb =>
        buildBits (dictInsert (dictInsert bits (.str x.bitname) mb)
          (.num x.bitnum) mb) rest

/-- Embedding of `BitMask.__init__(self, name, bitdefs)`: look the mask
name up in the definition table (a `KeyError` if absent, as for any Python
dict subscript) and populate `_bits` entry by entry.  An exception aborts
construction: no partial registry is returned. -/
def BitMask.init (name : String) (bitdefs : List (String × List RawEntry)) :
    Except PyError BitMask :=
  match dictFind bitdefs name with
  | none => .error .keyError
  | some entries =>
    match buildBits [] entries with
    | .error err => .error err
    | .ok bits => .ok { _name := name, _bits := bits }

/-- Embedding of `BitMask.__getitem__`: dict lookup, `KeyError` when the
key is absent. -/
def BitMask.getitem (m : BitMask) (k : BitsKey) : Except PyError MaskBit :=
  match dictFind m._bits k with
  | some mb => .ok mb
  | none => .error .keyError

/-- Embedding of `BitMask.bitnum`: bit number for a bit name. -/
def BitMask.bitnumOf (m : BitMask) (bitname : String) : Except PyError Nat :=
  (m.getitem (.str bitname)).map (fun mb => mb.bitnum)

/-- Embedding of `BitMask.bitname`: bit name for a bit number. -/
def BitMask.bitnameOf (m : BitMask) (bitnum : Nat) : Except PyError String :=
  (m.getitem (.num bitnum)).map (fun mb => mb.name)

/-- Embedding of `BitMask.comment`: comment for a bit name or number. -/
def BitMask.commentOf (m : BitMask) (k : BitsKey) : Except PyError String :=
  (m.getitem k).map (fun mb => mb.comment)

/-- Python `str.split` with the single-character separator, over the
character list of the string: `''.split(sep)` gives `['']`, and each
separator occurrence starts a new field. -/
def pySplit (sep : Char) : List Char → List (List Char)
  | [] => [[]]
  | c :: rest =>
    let groups := pySplit sep rest
    if c = sep then
      [] :: groups
    else
      match groups with
      | [] => [[c]]
      | g :: gs => (c :: g) :: gs

/-- The accumulation loop of the string branch of `BitMask.mask`:
`mask |= self._bits[name].mask` over the names split on the separator,
with `KeyError` on the first unregistered name. -/
def maskFold (m : BitMask) : List String → Nat → Except PyError Nat
  | [], acc => .ok acc
  | n :: rest, acc =>
    match m.getitem (.str n) with
    | .error err => .error err
    | .ok mb => maskFold m rest (acc ||| mb.mask)

/-- Embedding of `BitMask.mask(name_or_num)`: an integer argument is a
direct bit-number lookup; a string argument is split on the separator
character and the mask values of the named bits are OR-combined. -/
def BitMask.maskOf (m : BitMask) : BitsKey → Except PyError Nat
  | .num n => (m.getitem (.num n)).map (fun mb => mb.mask)
  | .str s =>
    maskFold m ((pySplit '|' s.data).map (fun cs => String.mk cs)) 0

/-- The integer keys of the `_bits` dict
(`[x for x in self._bits.keys() if isinstance(x, int)]`). -/
def intKeys (d : List (BitsKey × MaskBit)) : List Nat :=
  d.filterMap (fun p => match p.1 with | .num n => some n | .str _ => none)

/-- The decode loop of `BitMask.names(mask)`, exactly as written in the
source: `while bitnum**2 <= mask`, appending the registered name or the
synthetic `UNKNOWN<bitnum>` label for each set bit encountered. -/
def namesLoop (d : List (BitsKey × MaskBit)) (mask : Nat) (bitnum : Nat) :
    List String :=
  if h : bitnum ^ 2 ≤ mask then
    (if (2 ^ bitnum).land mask ≠ 0 then
      [match dictFind d (.num bitnum) with
       | some mb => mb.name
       | none => "UNKNOWN" ++ toString bitnum]
     else []) ++ namesLoop d mask (bitnum + 1)
  else
    []
termination_by mask + 1 - bitnum
decreasing_by
  have hb : bitnum ≤ bitnum ^ 2 := Nat.le_self_pow two_ne_zero bitnum
  omega

/-- Embedding of `BitMask.names(mask=None)`: with no mask, the names of
all registered bits in ascending bit-number order (Python `sorted` over
the integer keys); with a mask, the decode loop. -/
def BitMask.names (m : BitMask) (mask : Option Nat) : List String :=
  match mask with
  | none =>
    (List.insertionSort (· ≤ ·) (intKeys m._bits)).filterMap
      (fun b => (dictFind m._bits (.num b)).map (fun mb => mb.name))
  | some mv => namesLoop m._bits mv 0

/-- Decimal digit character for a value below ten. -/
def digitChar (d : Nat) : Char :=
  match d with
  | 0 => '0' | 1 => '1' | 2 => '2' | 3 => '3' | 4 => '4'
  | 5 => '5' | 6 => '6' | 7 => '7' | 8 => '8' | _ => '9'

/-- Numeric value of a decimal digit character. -/
def digitVal (c : Char) : Nat :=
  match c with
  | '0' => 0 | '1' => 1 | '2' => 2 | '3' => 3 | '4' => 4
  | '5' => 5 | '6' => 6 | '7' => 7 | '8' => 8 | _ => 9

/-- Decimal rendering of a natural number (most significant digit first),
the textual form Python produces for a non-negative int. -/
def natToChars (n : Nat) : List Char :=
  if _h : n < 10 then [digitChar n]
  else natToChars (n / 10) ++ [digitChar (n % 10)]
termination_by n
decreasing_by exact Nat.div_lt_self (by omega) (by omega)

/-- Decimal parsing of a digit string. -/
def parseNat (ds : List Char) : Nat :=
  ds.foldl (fun a c => a * 10 + digitVal c) 0

/-- Left-justify a string in a field of the given width, as Python
`'{:16s}'.format`. -/
def padRight (s : String) (w : Nat) : String :=
  s ++ String.mk (List.replicate (w - s.length) ' ')

/-- Right-justify a string in a field of the given width, as Python
`'{:2d}'.format`. -/
def padLeft (s : String) (w : Nat) : String :=
  String.mk (List.replicate (w - s.length) ' ') ++ s

/-- Python `sep.join(strings)`. -/
def pyJoin (sep : String) : List String → String
  | [] => ""
  | [s] => s
  | s :: rest => s ++ sep ++ pyJoin sep rest

/-- Python `str` of a dict with string keys and values:
`\x7b'key': 'value', ...\x7d`. -/
def pyStrDict (pairs : List (String × String)) : String :=
  "\x7b" ++
    pyJoin ", "
      (pairs.map (fun p => "\x27" ++ p.1 ++ "\x27: \x27" ++ p.2 ++ "\x27")) ++
    "\x7d"

/-- One line of `BitMask.__repr__` for a single bit:
`  - [<name>,<pad> <num>, "<comment>"]`, with `, <extra dict>]` instead of
the plain closing bracket when extra attributes are present. -/
def reprLine (mb : MaskBit) : String :=
  let line := "  - [" ++ padRight (mb.name ++ ",") 16 ++ " " ++
    padLeft (String.mk (natToChars mb.bitnum)) 2 ++ ", \"" ++ mb.comment ++ "\""
  if mb.extra.length > 0 then
    line ++ ", " ++ pyStrDict mb.extra ++ "]"
  else
    line ++ "]"

/-- Embedding of `BitMask.__repr__`: the header `<name>:` followed by one
definition line per bit in ascending bit-number order, joined by
newlines. -/
def BitMask.reprStr (m : BitMask) : String :=
  pyJoin "\n"
    ((m._name ++ ":") ::
      (List.insertionSort (· ≤ ·) (intKeys m._bits)).filterMap
        (fun b => (dictFind m._bits (.num b)).map reprLine))

/-- Strip an expected prefix from a character list, returning the
remainder, or nothing when the prefix does not match. -/
def dropPrefixChars : List Char → List Char → Option (List Char)
  | [], cs => some cs
  | _ :: _, [] => none
  | p :: ps, c :: cs => if c = p then dropPrefixChars ps cs else none

/-- Strip an expected suffix from a character list, returning the
remainder, or nothing when the suffix does not match. -/
def dropSuffixChars (suf cs : List Char) : Option (List Char) :=
  (dropPrefixChars suf.reverse cs.reverse).map List.reverse

/-- Parse one field of a serialized extra-attributes dict:
`\x27key\x27: \x27value\x27`, with optional leading spaces. -/
def parseDictField (cs : List Char) : Option (String × String) :=
  match dropPrefixChars ['\x27'] (cs.dropWhile (fun c => c = ' ')) with
  | none => none
  | some cs₂ =>
    match dropPrefixChars ['\x27', ':', ' ', '\x27']
        (cs₂.dropWhile (fun c => c ≠ '\x27')) with
    | none => none
    | some cs₃ =>
      match cs₃.dropWhile (fun c => c ≠ '\x27') with
      | ['\x27'] =>
        some (String.mk (cs₂.takeWhile (fun c => c ≠ '\x27')),
              String.mk (cs₃.takeWhile (fun c => c ≠ '\x27')))
      | _ => none

/-- Parse the comma-separated fields of a serialized dict. -/
def parseFields : List (List Char) → Option (List (String × String))
  | [] => some []
  | f :: fs =>
    match parseDictField f, parseFields fs with
    | some kv, some kvs => some (kv :: kvs)
    | _, _ => none

/-- Parse a serialized extra-attributes dict
`\x7b\x27k\x27: \x27v\x27, ...\x7d` into its key-value pairs. -/
def parseDict (cs : List Char) : Option (List (String × String)) :=
  match dropPrefixChars ['\x7b'] cs with
  | none => none
  | some cs₁ =>
    match dropSuffixChars ['\x7d'] cs₁ with
    | none => none
    | some cs₂ => parseFields (pySplit ',' cs₂)

/-- Parse the part of a definition line following the closing quote of
the comment: nothing, or a comma-space followed by a serialized extras
dict. -/
def parseExtraPart (cs : List Char) : Option (Option Extra4) :=
  match cs with
  | [] => some Option.none
  | _ =>
    match dropPrefixChars [',', ' '] cs with
    | none => none
    | some cs₇ =>
      match parseDict cs₇ with
      | none => none
      | some pairs => some (Option.some (Extra4.dict pairs))

/-- Parse one serialized definition line
`  - [<name>,<pad> <num>, "<comment>"<extras?>]` back into a raw entry. -/
def parseLine (cs : List Char) : Option RawEntry :=
  match dropPrefixChars "  - [".data cs with
  | none => none
  | some cs₁ =>
    match dropSuffixChars [']'] cs₁ with
    | none => none
    | some cs₂ =>
      match dropPrefixChars [','] (cs₂.dropWhile (fun c => c ≠ ',')) with
      | none => none
      | some cs₃ =>
        if (cs₃.dropWhile (fun c => c = ' ')).takeWhile Char.isDigit
            = [] then none else
        match dropPrefixChars [',', ' ', '\"']
            ((cs₃.dropWhile (fun c => c = ' ')).dropWhile Char.isDigit) with
        | none => none
        | some cs₅ =>
          match dropPrefixChars ['\"'] (cs₅.dropWhile (fun c => c ≠ '\"')) with
          | none => none
          | some cs₆ =>
            match parseExtraPart cs₆ with
            | none => none
            | some extra4 =>
              some { bitname := String.mk (cs₂.takeWhile (fun c => c ≠ ',')),
                     bitnum := parseNat ((cs₃.dropWhile
                       (fun c => c = ' ')).takeWhile Char.isDigit),
                     comment := String.mk (cs₅.takeWhile (fun c => c ≠ '\"')),
                     extra4 := extra4 }

/-- Parse a list of serialized definition lines. -/
def parseLines : List (List Char) → Option (List RawEntry)
  | [] => some []
  | l :: ls =>
    match parseLine l, parseLines ls with
    | some e, some es => some (e :: es)
    | _, _ => none

/-- Modelled from the spec: the external definition-table loader (the
configuration parser, `yaml.load` in the repository doctests and tests,
which is not part of this repository) applied to the serialized textual
form of a registry.  Per the spec, the serialized form is the header line
`<registryName>:` followed by one `  - [name, num, "comment"(, extras)]`
entry line per bit; the loader returns a definition table mapping the
registry name to the parsed entry list. -/
def parse (s : String) : Option (List (String × List RawEntry)) :=
  match pySplit '\n' s.data with
  | [] => none
  | header :: rest =>
    match dropSuffixChars [':'] header, parseLines rest with
    | some hname, some entries => some [(String.mk hname, entries)]
    | _, _ => none

/-- The extra-attributes mapping an entry contributes: the 4th element
when it is a dict, the empty dict otherwise (the `else` branch of
`BitMask.__init__`). -/
def extraOf (e : RawEntry) : List (String × String) :=
  match e.extra4 with
  | some (.dict ps) => ps
  | _ => []

/-- The `_MaskBit` value a raw entry produces when validation passes. -/
def mkOf (e : RawEntry) : MaskBit :=
  { value := 2 ^ e.bitnum, name := e.bitname, bitnum := e.bitnum,
    mask := 2 ^ e.bitnum, comment := e.comment, extra := extraOf e }

/-- The two dict assignments of one `BitMask.__init__` iteration:
`self._bits[bitname] = ...; self._bits[bitnum] = ...`. -/
def insert2 (d : List (BitsKey × MaskBit)) (e : RawEntry) :
    List (BitsKey × MaskBit) :=
  dictInsert (dictInsert d (.str e.bitname) (mkOf e)) (.num e.bitnum) (mkOf e)

/-- The table obtained by running the construction loop over all entries
(the ordinary outcome when no entry raises). -/
def insertFold (d : List (BitsKey × MaskBit)) (defs : List RawEntry) :
    List (BitsKey × MaskBit) :=
  defs.foldl insert2 d

/-- An entry passes construction-time validation: its 4th element, when
present, is a dict whose keys collide with no existing attribute. -/
def entryOk (e : RawEntry) : Prop :=
  match e.extra4 with
  | some (.nonDict _) => False
  | some (.dict ps) => firstCollision ps maskBitBaseAttributes = none
  | none => True

/-- A raw entry carrying the data of a mask bit, as the serialized line of
that bit parses back: the extras field is present exactly when the stored
extra mapping is non-empty. -/
def rawOf (mb : MaskBit) : RawEntry :=
  { bitname := mb.name, bitnum := mb.bitnum, comment := mb.comment,
    extra4 := if mb.extra.length > 0 then some (.dict mb.extra) else none }

/-- The registered name at a bit position of a definition list (used to
state enumeration order results). -/
def nameAt (defs : List RawEntry) (b : Nat) : String :=
  ((defs.find? (fun e => e.bitnum = b)).map (fun e => e.bitname)).getD ""

section DictLemmas

/-- The integer carried by a dict key, when it is an integer key. -/
def keyNum : BitsKey → Option Nat
  | .num n => some n
  | .str _ => none

theorem fst_replace {β : Type} [DecidableEq β] {γ : Type} (k : β) (v : γ)
    (p : β × γ) : (if p.1 = k then (k, v) else p).1 = p.1 := by
  split
  · rename_i h
    exact h.symm
  · rfl

theorem find?_replace_self {β : Type} [DecidableEq β] {γ : Type}
    (d : List (β × γ)) (k : β) (v : γ) :
    ((d.map (fun p => if p.1 = k then (k, v) else p)).find?
        (fun p => p.1 = k))
      = (d.find? (fun p => p.1 = k)).map (fun _ => (k, v)) := by
  induction d with
  | nil => simp
  | cons q d ih =>
    by_cases hq : q.1 = k
    · rw [List.map_cons, if_pos hq,
        List.find?_cons_of_pos _ (by simp),
        List.find?_cons_of_pos _ (by simp [hq])]
      simp
    · rw [List.map_cons, if_neg hq,
        List.find?_cons_of_neg _ (by simp [hq]),
        List.find?_cons_of_neg _ (by simp [hq])]
      exact ih

theorem find?_replace_ne {β : Type} [DecidableEq β] {γ : Type}
    (d : List (β × γ)) (k k' : β) (v : γ) (hne : k' ≠ k) :
    ((d.map (fun p => if p.1 = k then (k, v) else p)).find?
        (fun p => p.1 = k'))
      = d.find? (fun p => p.1 = k') := by
  induction d with
  | nil => simp
  | cons q d ih =>
    by_cases hq : q.1 = k
    · rw [List.map_cons, if_pos hq,
        List.find?_cons_of_neg _ (by simpa using Ne.symm hne),
        List.find?_cons_of_neg _ (by rw [hq]; simpa using Ne.symm hne)]
      exact ih
    · by_cases hq' : q.1 = k'
      · rw [List.map_cons, if_neg hq,
          List.find?_cons_of_pos _ (by simp [hq']),
          List.find?_cons_of_pos _ (by simp [hq'])]
      · rw [List.map_cons, if_neg hq,
          List.find?_cons_of_neg _ (by simp [hq']),
          List.find?_cons_of_neg _ (by simp [hq'])]
        exact ih

theorem dictFind_insert_self {β : Type} [DecidableEq β] {γ : Type}
    (d : List (β × γ)) (k : β) (v : γ) :
    dictFind (dictInsert d k v) k = some v := by
  unfold dictInsert dictFind
  split
  case isTrue hp =>
    rw [find?_replace_self]
    rw [List.any_eq_true] at hp
    obtain ⟨p, hmem, hpk⟩ := hp
    have : (d.find? (fun p => p.1 = k)).isSome :=
      List.find?_isSome.mpr ⟨p, hmem, hpk⟩
    cases h : d.find? (fun p => p.1 = k) with
    | none => rw [h] at this; simp at this
    | some q => simp
  case isFalse hp =>
    rw [List.find?_append]
    have h₁ : (d.find? (fun p => p.1 = k)) = none := by
      rw [List.find?_eq_none]
      intro p hmem hc
      exact hp (List.any_eq_true.mpr ⟨p, hmem, hc⟩)
    rw [h₁]
    simp [List.find?]

theorem dictFind_insert_ne {β : Type} [DecidableEq β] {γ : Type}
    (d : List (β × γ)) (k k' : β) (v : γ) (hne : k' ≠ k) :
    dictFind (dictInsert d k v) k' = dictFind d k' := by
  unfold dictInsert dictFind
  split
  · rw [find?_replace_ne _ _ _ _ hne]
  · rw [List.find?_append]
    have : (([(k, v)] : List (β × γ)).find? (fun p => p.1 = k')) = none := by
      simp [List.find?, decide_eq_false (fun h : k = k' => hne h.symm)]
    rw [this]
    cases d.find? (fun p => p.1 = k') <;> simp

theorem intKeys_eq_filterMap (d : List (BitsKey × MaskBit)) :
    intKeys d = d.filterMap (fun p => keyNum p.1) := by
  unfold intKeys keyNum
  rfl

theorem intKeys_dictInsert_str (d : List (BitsKey × MaskBit)) (s : String)
    (v : MaskBit) : intKeys (dictInsert d (.str s) v) = intKeys d := by
  unfold dictInsert
  split
  · rw [intKeys_eq_filterMap, intKeys_eq_filterMap, List.filterMap_map]
    refine List.filterMap_congr ?_
    intro p _
    simp only [Function.comp_apply, fst_replace]
  · rw [intKeys_eq_filterMap, intKeys_eq_filterMap, List.filterMap_append]
    simp [keyNum]

theorem mem_intKeys_iff (d : List (BitsKey × MaskBit)) (n : Nat) :
    n ∈ intKeys d ↔ (d.any (fun p => p.1 = BitsKey.num n)) = true := by
  rw [intKeys_eq_filterMap, List.mem_filterMap, List.any_eq_true]
  constructor
  · rintro ⟨p, hp, hm⟩
    refine ⟨p, hp, ?_⟩
    cases h : p.1 with
    | str s => rw [h] at hm; simp [keyNum] at hm
    | num b =>
      rw [h] at hm
      simp only [keyNum, Option.some.injEq] at hm
      simp [h, hm]
  · rintro ⟨p, hp, hm⟩
    refine ⟨p, hp, ?_⟩
    rw [decide_eq_true_eq] at hm
    simp [hm, keyNum]

theorem intKeys_dictInsert_num_fresh (d : List (BitsKey × MaskBit)) (n : Nat)
    (v : MaskBit) (hfresh : n ∉ intKeys d) :
    intKeys (dictInsert d (.num n) v) = intKeys d ++ [n] := by
  unfold dictInsert
  rw [if_neg]
  · rw [intKeys_eq_filterMap, intKeys_eq_filterMap, List.filterMap_append]
    simp [keyNum]
  · intro hany
    exact hfresh ((mem_intKeys_iff d n).mpr hany)

end DictLemmas

section BuildLemmas

theorem maskBitNew_eq_ok_mkOf (e : RawEntry)
    (hcol : firstCollision (extraOf e) maskBitBaseAttributes = none) :
    MaskBit.new e.bitname e.bitnum e.comment (extraOf e) = .ok (mkOf e) := by
  unfold MaskBit.new mkOf
  rw [hcol]

theorem buildBits_cons_ok (d : List (BitsKey × MaskBit)) (e : RawEntry)
    (rest : List RawEntry) (hok : entryOk e) :
    buildBits d (e :: rest) = buildBits (insert2 d e) rest := by
  unfold entryOk at hok
  cases h4 : e.extra4 with
  | none =>
    have he : extraOf e = [] := by simp [extraOf, h4]
    have hnew : MaskBit.new e.bitname e.bitnum e.comment [] = .ok (mkOf e) := by
      rw [← he]
      exact maskBitNew_eq_ok_mkOf e (by rw [he]; rfl)
    simp only [buildBits, h4, hnew]
    rfl
  | some ex =>
    cases ex with
    | dict ps =>
      rw [h4] at hok
      have he : extraOf e = ps := by simp [extraOf, h4]
      have hnew : MaskBit.new e.bitname e.bitnum e.comment ps = .ok (mkOf e) := by
        rw [← he]
        exact maskBitNew_eq_ok_mkOf e (by rw [he]; exact hok)
      simp only [buildBits, h4, hnew]
      rfl
    | nonDict v =>
      rw [h4] at hok
      exact absurd hok (by simp)

theorem buildBits_cons_nonDict (d : List (BitsKey × MaskBit)) (e : RawEntry)
    (rest : List RawEntry) (v : Int) (h4 : e.extra4 = some (.nonDict v)) :
    buildBits d (e :: rest)
      = .error (.valueError (e.bitname ++ " extra values should be a dict")) := by
  simp only [buildBits, h4]

theorem buildBits_cons_collision (d : List (BitsKey × MaskBit)) (e : RawEntry)
    (rest : List RawEntry) (ps : List (String × String)) (key : String)
    (h4 : e.extra4 = some (.dict ps))
    (hcol : firstCollision ps maskBitBaseAttributes = some key) :
    buildBits d (e :: rest)
      = .error (.attributeError ("Bit " ++ e.bitname ++ " extra key \x27" ++
          key ++ "\x27 is already in use by int objects.")) := by
  simp only [buildBits, h4, MaskBit.new, hcol]

theorem not_entryOk_cases (e : RawEntry) (hbad : ¬ entryOk e) :
    (∃ v, e.extra4 = some (.nonDict v)) ∨
    (∃ ps key, e.extra4 = some (.dict ps) ∧
      firstCollision ps maskBitBaseAttributes = some key) := by
  unfold entryOk at hbad
  cases h4 : e.extra4 with
  | none => rw [h4] at hbad; exact absurd trivial hbad
  | some ex =>
    cases ex with
    | dict ps =>
      rw [h4] at hbad
      cases hcol : firstCollision ps maskBitBaseAttributes with
      | none => exact absurd hcol hbad
      | some key => exact Or.inr ⟨ps, key, rfl, hcol⟩
    | nonDict v => exact Or.inl ⟨v, rfl⟩

theorem buildBits_ok_of_valid (d : List (BitsKey × MaskBit))
    (defs : List RawEntry) (hok : ∀ e ∈ defs, entryOk e) :
    buildBits d defs = .ok (insertFold d defs) := by
  induction defs generalizing d with
  | nil => rfl
  | cons e rest ih =>
    rw [buildBits_cons_ok d e rest (hok e (List.mem_cons_self e rest))]
    rw [ih _ (fun x hx => hok x (List.mem_cons_of_mem e hx))]
    rfl

theorem buildBits_ok_inv (d : List (BitsKey × MaskBit))
    (defs : List RawEntry) (t : List (BitsKey × MaskBit))
    (h : buildBits d defs = .ok t) :
    (∀ e ∈ defs, entryOk e) ∧ t = insertFold d defs := by
  induction defs generalizing d with
  | nil =>
    refine ⟨by simp, ?_⟩
    simpa [buildBits, insertFold] using h.symm
  | cons e rest ih =>
    by_cases hok : entryOk e
    · rw [buildBits_cons_ok d e rest hok] at h
      obtain ⟨hrest, ht⟩ := ih _ h
      refine ⟨?_, ht⟩
      intro x hx
      rcases List.mem_cons.mp hx with hx | hx
      · subst hx; exact hok
      · exact hrest x hx
    · rcases not_entryOk_cases e hok with ⟨v, h4⟩ | ⟨ps, key, h4, hcol⟩
      · rw [buildBits_cons_nonDict d e rest v h4] at h
        cases h
      · rw [buildBits_cons_collision d e rest ps key h4 hcol] at h
        cases h

theorem buildBits_error_isValidation (d : List (BitsKey × MaskBit))
    (defs : List RawEntry) (err : PyError)
    (h : buildBits d defs = .error err) : err.isValidationError = true := by
  induction defs generalizing d with
  | nil => simp [buildBits] at h
  | cons e rest ih =>
    by_cases hok : entryOk e
    · rw [buildBits_cons_ok d e rest hok] at h
      exact ih _ h
    · rcases not_entryOk_cases e hok with ⟨v, h4⟩ | ⟨ps, key, h4, hcol⟩
      · rw [buildBits_cons_nonDict d e rest v h4] at h
        cases h
        rfl
      · rw [buildBits_cons_collision d e rest ps key h4 hcol] at h
        cases h
        rfl

theorem buildBits_fails_of_invalid (d : List (BitsKey × MaskBit))
    (defs : List RawEntry) (e : RawEntry) (he : e ∈ defs)
    (hbad : ¬ entryOk e) :
    ∃ err, buildBits d defs = .error err ∧ err.isValidationError = true := by
  cases h : buildBits d defs with
  | error err => exact ⟨err, rfl, buildBits_error_isValidation _ _ _ h⟩
  | ok t => exact absurd ((buildBits_ok_inv _ _ _ h).1 e he) hbad

theorem dictFind_insert2_str (d : List (BitsKey × MaskBit)) (e : RawEntry)
    (s : String) :
    dictFind (insert2 d e) (.str s)
      = (if e.bitname = s then some (mkOf e) else none).or
          (dictFind d (.str s)) := by
  unfold insert2
  rw [dictFind_insert_ne _ _ _ _ (by simp)]
  by_cases hn : e.bitname = s
  · rw [if_pos hn, hn, dictFind_insert_self]
    rfl
  · rw [if_neg hn,
      dictFind_insert_ne _ _ _ _
        (by intro hc; injection hc with hc; exact hn hc.symm),
      Option.none_or]

theorem dictFind_insert2_num (d : List (BitsKey × MaskBit)) (e : RawEntry)
    (b : Nat) :
    dictFind (insert2 d e) (.num b)
      = (if e.bitnum = b then some (mkOf e) else none).or
          (dictFind d (.num b)) := by
  unfold insert2
  by_cases hn : e.bitnum = b
  · rw [if_pos hn, hn, dictFind_insert_self]
    rfl
  · rw [if_neg hn,
      dictFind_insert_ne _ _ _ _
        (by intro hc; injection hc with hc; exact hn hc.symm),
      dictFind_insert_ne _ _ _ _ (by simp), Option.none_or]

theorem dictFind_insertFold_str (d : List (BitsKey × MaskBit))
    (defs : List RawEntry) (s : String) :
    dictFind (insertFold d defs) (.str s)
      = ((defs.reverse.find? (fun e => e.bitname = s)).map mkOf).or
          (dictFind d (.str s)) := by
  induction defs generalizing d with
  | nil => simp [insertFold]
  | cons e rest ih =>
    unfold insertFold at ih ⊢
    rw [List.foldl_cons, ih, List.reverse_cons, List.find?_append,
      dictFind_insert2_str]
    rw [show ((rest.reverse.find? fun e => decide (e.bitname = s)).or
        (List.find? (fun e => decide (e.bitname = s)) [e])).map mkOf
      = ((rest.reverse.find? fun e => decide (e.bitname = s)).map mkOf).or
        ((List.find? (fun e => decide (e.bitname = s)) [e]).map mkOf) from by
        cases rest.reverse.find? fun e => decide (e.bitname = s) <;> simp]
    rw [Option.or_assoc]
    congr 1
    by_cases hn : e.bitname = s
    · simp [List.find?, hn]
    · simp [List.find?, hn]

theorem dictFind_insertFold_num (d : List (BitsKey × MaskBit))
    (defs : List RawEntry) (b : Nat) :
    dictFind (insertFold d defs) (.num b)
      = ((defs.reverse.find? (fun e => e.bitnum = b)).map mkOf).or
          (dictFind d (.num b)) := by
  induction defs generalizing d with
  | nil => simp [insertFold]
  | cons e rest ih =>
    unfold insertFold at ih ⊢
    rw [List.foldl_cons, ih, List.reverse_cons, List.find?_append,
      dictFind_insert2_num]
    rw [show ((rest.reverse.find? fun e => decide (e.bitnum = b)).or
        (List.find? (fun e => decide (e.bitnum = b)) [e])).map mkOf
      = ((rest.reverse.find? fun e => decide (e.bitnum = b)).map mkOf).or
        ((List.find? (fun e => decide (e.bitnum = b)) [e]).map mkOf) from by
        cases rest.reverse.find? fun e => decide (e.bitnum = b) <;> simp]
    rw [Option.or_assoc]
    congr 1
    by_cases hn : e.bitnum = b
    · simp [List.find?, hn]
    · simp [List.find?, hn]

theorem intKeys_insertFold (d : List (BitsKey × MaskBit))
    (defs : List RawEntry)
    (hnd : (intKeys d ++ defs.map (fun e => e.bitnum)).Nodup) :
    intKeys (insertFold d defs) = intKeys d ++ defs.map (fun e => e.bitnum) := by
  induction defs generalizing d with
  | nil => simp [insertFold]
  | cons e rest ih =>
    unfold insertFold at ih ⊢
    rw [List.foldl_cons]
    have hkeys : intKeys (insert2 d e) = intKeys d ++ [e.bitnum] := by
      unfold insert2
      rw [intKeys_dictInsert_num_fresh, intKeys_dictInsert_str]
      rw [intKeys_dictInsert_str]
      intro hmem
      rw [List.nodup_append] at hnd
      exact hnd.2.2 hmem (by simp)
    have hnd' : (intKeys (insert2 d e) ++ rest.map (fun e => e.bitnum)).Nodup := by
      rw [hkeys]
      have heq : intKeys d ++ [e.bitnum] ++ rest.map (fun e => e.bitnum)
          = intKeys d ++ (e.bitnum :: rest.map (fun e => e.bitnum)) := by simp
      rw [heq]
      simpa using hnd
    rw [ih _ hnd', hkeys]
    simp

end BuildLemmas

section LookupLemmas

theorem init_single_ok (nm : String) (defs : List RawEntry) (m : BitMask)
    (h : BitMask.init nm [(nm, defs)] = .ok m) :
    buildBits [] defs = .ok m._bits ∧ m._name = nm ∧
      m._bits = insertFold [] defs ∧ (∀ e ∈ defs, entryOk e) := by
  unfold BitMask.init at h
  have hfind : dictFind [(nm, defs)] nm = some defs := by
    simp [dictFind, List.find?]
  rw [hfind] at h
  dsimp only at h
  cases hb : buildBits [] defs with
  | error err =>
    rw [hb] at h
    cases h
  | ok bits =>
    rw [hb] at h
    injection h with h
    obtain ⟨hok, hins⟩ := buildBits_ok_inv _ _ _ hb
    subst h
    exact ⟨rfl, rfl, hins, hok⟩

theorem init_fails_of_invalid (nm : String) (defs : List RawEntry)
    (e : RawEntry) (he : e ∈ defs) (hbad : ¬ entryOk e) :
    ∃ err, BitMask.init nm [(nm, defs)] = .error err ∧
      err.isValidationError = true := by
  unfold BitMask.init
  have hfind : dictFind [(nm, defs)] nm = some defs := by
    simp [dictFind, List.find?]
  rw [hfind]
  dsimp only
  obtain ⟨err, herr, hval⟩ := buildBits_fails_of_invalid [] defs e he hbad
  exact ⟨err, by rw [herr], hval⟩

theorem find?_keyEq_of_perm {α β : Type} [DecidableEq β] (key : α → β)
    {l l' : List α} (hp : l.Perm l') (hnd : (l.map key).Nodup) (k : β) :
    l.find? (fun e => key e = k) = l'.find? (fun e => key e = k) := by
  cases h : l.find? (fun e => key e = k) with
  | none =>
    rw [List.find?_eq_none] at h
    symm
    rw [List.find?_eq_none]
    intro x hx
    exact h x (hp.symm.subset hx)
  | some e =>
    have he : e ∈ l := List.mem_of_find?_eq_some h
    have hke : key e = k := by simpa using List.find?_some h
    have hsome : (l'.find? (fun e => key e = k)).isSome := by
      rw [List.find?_isSome]
      exact ⟨e, hp.subset he, by simpa using hke⟩
    cases h' : l'.find? (fun e => key e = k) with
    | none => rw [h'] at hsome; simp at hsome
    | some e' =>
      have he' : e' ∈ l := hp.symm.subset (List.mem_of_find?_eq_some h')
      have hke' : key e' = k := by simpa using List.find?_some h'
      have heq : e = e' := List.inj_on_of_nodup_map hnd he he' (by rw [hke, hke'])
      rw [heq]

theorem find?_reverse_of_nodup {α β : Type} [DecidableEq β] (key : α → β)
    {l : List α} (hnd : (l.map key).Nodup) (k : β) :
    l.reverse.find? (fun e => key e = k) = l.find? (fun e => key e = k) := by
  refine find?_keyEq_of_perm key (List.reverse_perm l) ?_ k
  rw [List.map_reverse, List.nodup_reverse]
  exact hnd

theorem dictFind_bits_str (nm : String) (defs : List RawEntry) (m : BitMask)
    (h : BitMask.init nm [(nm, defs)] = .ok m) (s : String) :
    dictFind m._bits (.str s)
      = (defs.reverse.find? (fun e => e.bitname = s)).map mkOf := by
  obtain ⟨-, -, hins, -⟩ := init_single_ok nm defs m h
  rw [hins, dictFind_insertFold_str]
  simp [dictFind]

theorem dictFind_bits_num (nm : String) (defs : List RawEntry) (m : BitMask)
    (h : BitMask.init nm [(nm, defs)] = .ok m) (b : Nat) :
    dictFind m._bits (.num b)
      = (defs.reverse.find? (fun e => e.bitnum = b)).map mkOf := by
  obtain ⟨-, -, hins, -⟩ := init_single_ok nm defs m h
  rw [hins, dictFind_insertFold_num]
  simp [dictFind]

theorem getitem_str_ok_inv (m : BitMask) (s : String) (mb : MaskBit)
    (h : m.getitem (.str s) = .ok mb) :
    dictFind m._bits (.str s) = some mb := by
  unfold BitMask.getitem at h
  cases hf : dictFind m._bits (.str s) with
  | none => rw [hf] at h; cases h
  | some mb' =>
    rw [hf] at h
    injection h with h
    rw [h]

end LookupLemmas

section StringSplitLemmas

theorem pySplit_no_sep (sep : Char) (cs : List Char) (h : sep ∉ cs) :
    pySplit sep cs = [cs] := by
  induction cs with
  | nil => rfl
  | cons c cs ih =>
    have hc : ¬ (c = sep) := fun hc => h (hc ▸ List.mem_cons_self c cs)
    simp only [pySplit, if_neg hc, ih (fun hm => h (List.mem_cons_of_mem c hm))]

theorem pySplit_append_sep (sep : Char) (a b : List Char) (ha : sep ∉ a) :
    pySplit sep (a ++ sep :: b) = a :: pySplit sep b := by
  induction a with
  | nil =>
    show pySplit sep (sep :: b) = [] :: pySplit sep b
    simp [pySplit]
  | cons c a ih =>
    have hc : ¬ (c = sep) := fun hc => ha (hc ▸ List.mem_cons_self c a)
    show pySplit sep (c :: (a ++ sep :: b)) = (c :: a) :: pySplit sep b
    simp only [pySplit, if_neg hc, ih (fun hm => ha (List.mem_cons_of_mem c hm))]

end StringSplitLemmas

section CharListLemmas

theorem filterMap_eq_map_of {α β : Type} (l : List α) (f : α → Option β)
    (g : α → β) (h : ∀ a ∈ l, f a = some (g a)) : l.filterMap f = l.map g := by
  induction l with
  | nil => rfl
  | cons a l ih =>
    rw [List.filterMap_cons, h a (List.mem_cons_self a l), List.map_cons,
      ih (fun x hx => h x (List.mem_cons_of_mem a hx))]

theorem dropPrefixChars_append (p r : List Char) :
    dropPrefixChars p (p ++ r) = some r := by
  induction p with
  | nil => rfl
  | cons c ps ih =>
    show dropPrefixChars (c :: ps) (c :: (ps ++ r)) = some r
    unfold dropPrefixChars
    rw [if_pos rfl]
    exact ih

theorem dropSuffixChars_append (suf r : List Char) :
    dropSuffixChars suf (r ++ suf) = some r := by
  unfold dropSuffixChars
  rw [List.reverse_append, dropPrefixChars_append]
  simp

theorem takeWhile_middle (p : Char → Bool) (a : List Char) (b : Char)
    (r : List Char) (ha : ∀ c ∈ a, p c = true) (hb : p b = false) :
    (a ++ b :: r).takeWhile p = a ∧ (a ++ b :: r).dropWhile p = b :: r := by
  induction a with
  | nil => simp [List.takeWhile, List.dropWhile, hb]
  | cons c a ih =>
    have hc : p c = true := ha c (List.mem_cons_self c a)
    obtain ⟨ih1, ih2⟩ := ih (fun x hx => ha x (List.mem_cons_of_mem c hx))
    constructor
    · show ((c :: (a ++ b :: r)).takeWhile p) = c :: a
      rw [List.takeWhile_cons, hc]
      simp [ih1]
    · show ((c :: (a ++ b :: r)).dropWhile p) = b :: r
      rw [List.dropWhile_cons, hc]
      simpa using ih2

theorem digitChar_isDigit (d : Nat) : (digitChar d).isDigit = true := by
  unfold digitChar
  split <;> rfl

theorem digitVal_digitChar (d : Nat) (h : d < 10) :
    digitVal (digitChar d) = d := by
  interval_cases d <;> rfl

theorem natToChars_all_digit (n : Nat) :
    ∀ c ∈ natToChars n, c.isDigit = true := by
  induction n using Nat.strong_induction_on with
  | _ n ih =>
    rw [natToChars.eq_def]
    split
    · intro c hc
      rw [List.mem_singleton] at hc
      rw [hc]
      exact digitChar_isDigit n
    · intro c hc
      rcases List.mem_append.mp hc with hc | hc
      · exact ih (n / 10) (Nat.div_lt_self (by omega) (by omega)) c hc
      · rw [List.mem_singleton] at hc
        rw [hc]
        exact digitChar_isDigit (n % 10)

theorem natToChars_ne_nil (n : Nat) : natToChars n ≠ [] := by
  rw [natToChars.eq_def]
  split
  · simp
  · simp

theorem foldl_digits_natToChars (n : Nat) : ∀ a : Nat,
    (natToChars n).foldl (fun a c => a * 10 + digitVal c) a
      = a * 10 ^ (natToChars n).length + n := by
  induction n using Nat.strong_induction_on with
  | _ n ih =>
    intro a
    rw [natToChars.eq_def]
    split
    · rename_i h
      show a * 10 + digitVal (digitChar n) = a * 10 ^ 1 + n
      rw [digitVal_digitChar n h]
      ring
    · rename_i h
      rw [List.foldl_append, ih (n / 10) (Nat.div_lt_self (by omega) (by omega)) a]
      show (a * 10 ^ (natToChars (n / 10)).length + n / 10) * 10
          + digitVal (digitChar (n % 10)) = _
      rw [digitVal_digitChar (n % 10) (Nat.mod_lt n (by omega))]
      rw [List.length_append, List.length_singleton]
      rw [pow_succ]
      have : n / 10 * 10 + n % 10 = n := by omega
      ring_nf
      omega

theorem parseNat_natToChars (n : Nat) : parseNat (natToChars n) = n := by
  unfold parseNat
  rw [foldl_digits_natToChars n 0]
  ring

theorem isDigit_ne_of (c x : Char) (hc : c.isDigit = true)
    (hx : x.isDigit = false) : c ≠ x := by
  intro h
  rw [h, hx] at hc
  cases hc

end CharListLemmas

section DictRoundTrip

theorem pyJoin_single (sep : String) (x : String) : pyJoin sep [x] = x := rfl

theorem pyJoin_cons_cons (sep x y : String) (rest : List String) :
    pyJoin sep (x :: y :: rest) = x ++ sep ++ pyJoin sep (y :: rest) := rfl

theorem pySplit_pyJoin_data (sep : Char) (sepStr : String)
    (hsep : sepStr.data = [sep]) (lines : List String) (hne : lines ≠ [])
    (hno : ∀ l ∈ lines, sep ∉ l.data) :
    pySplit sep (pyJoin sepStr lines).data
      = lines.map (fun l => l.data) := by
  induction lines with
  | nil => exact absurd rfl hne
  | cons x rest ih =>
    cases rest with
    | nil =>
      rw [pyJoin_single]
      rw [pySplit_no_sep sep x.data (hno x (List.mem_cons_self x []))]
      rfl
    | cons y rs =>
      rw [pyJoin_cons_cons]
      have hdata : (x ++ sepStr ++ pyJoin sepStr (y :: rs)).data
          = x.data ++ sep :: (pyJoin sepStr (y :: rs)).data := by
        rw [String.data_append, String.data_append, hsep]
        simp
      rw [hdata, pySplit_append_sep sep x.data _
        (hno x (List.mem_cons_self x (y :: rs)))]
      rw [ih (by simp) (fun l hl => hno l (List.mem_cons_of_mem x hl))]
      rfl

/-- The apostrophe character, written by its code point. -/
@[reducible] def Q : Char := '\x27'

theorem pairText_data (k v : String) :
    ("\x27" ++ k ++ "\x27: \x27" ++ v ++ "\x27").data
      = Q :: (k.data ++ (Q :: ':' :: ' ' :: Q :: (v.data ++ [Q]))) := by
  rw [String.data_append, String.data_append, String.data_append,
    String.data_append]
  rw [show ("\x27" : String).data = [Q] from rfl,
    show ("\x27: \x27" : String).data = [Q, ':', ' ', Q] from rfl]
  simp

theorem mem_pairText_data (k v : String) (c : Char)
    (hc : c ∈ ("\x27" ++ k ++ "\x27: \x27" ++ v ++ "\x27").data) :
    c = Q ∨ c ∈ k.data ∨ c = ':' ∨ c = ' ' ∨ c ∈ v.data := by
  rw [pairText_data] at hc
  rcases List.mem_cons.mp hc with h | h
  · exact Or.inl h
  rcases List.mem_append.mp h with h | h
  · exact Or.inr (Or.inl h)
  rcases List.mem_cons.mp h with h | h
  · exact Or.inl h
  rcases List.mem_cons.mp h with h | h
  · exact Or.inr (Or.inr (Or.inl h))
  rcases List.mem_cons.mp h with h | h
  · exact Or.inr (Or.inr (Or.inr (Or.inl h)))
  rcases List.mem_cons.mp h with h | h
  · exact Or.inl h
  rcases List.mem_append.mp h with h | h
  · exact Or.inr (Or.inr (Or.inr (Or.inr h)))
  · rw [List.mem_singleton] at h
    exact Or.inl h

theorem parseDictField_clean (pre : List Char)
    (hpre : ∀ c ∈ pre, c = ' ') (k v : String)
    (hk : (Q : Char) ∉ k.data) (hv : (Q : Char) ∉ v.data) :
    parseDictField (pre ++ ("\x27" ++ k ++ "\x27: \x27" ++ v ++ "\x27").data)
      = some (k, v) := by
  rw [pairText_data]
  unfold parseDictField
  have hdrop := (takeWhile_middle (fun c => c = ' ') pre Q
    (k.data ++ (Q :: ':' :: ' ' :: Q :: (v.data ++ [Q])))
    (fun c hc => by rw [hpre c hc]; rfl) (by rfl)).2
  rw [hdrop]
  rw [show (Q :: (k.data ++ (Q :: ':' :: ' ' :: Q
      :: (v.data ++ [Q])))) = [Q] ++ (k.data ++ (Q :: ':'
      :: ' ' :: Q :: (v.data ++ [Q]))) from rfl,
    dropPrefixChars_append]
  dsimp only
  have h2 := takeWhile_middle (fun c => c ≠ Q) k.data Q
    (':' :: ' ' :: Q :: (v.data ++ [Q]))
    (fun c hc => decide_eq_true (fun h => hk (h ▸ hc)))
    (by simp)
  rw [h2.2]
  rw [show (Q :: ':' :: ' ' :: Q :: (v.data ++ [Q]))
      = [Q, ':', ' ', Q] ++ (v.data ++ [Q]) from rfl,
    dropPrefixChars_append]
  dsimp only
  have h3 := takeWhile_middle (fun c => c ≠ Q) v.data Q []
    (fun c hc => decide_eq_true (fun h => hv (h ▸ hc)))
    (by simp)
  rw [h3.2]
  simp only [List.cons_append, List.nil_append]
  rw [h2.1, h3.1]

theorem comma_not_mem_pairText (k v : String)
    (hk : (',' : Char) ∉ k.data) (hv : (',' : Char) ∉ v.data) :
    (',' : Char) ∉ ("\x27" ++ k ++ "\x27: \x27" ++ v ++ "\x27").data := by
  intro hc
  rcases mem_pairText_data k v ',' hc with h | h | h | h | h
  · exact absurd h (by decide)
  · exact hk h
  · exact absurd h (by decide)
  · exact absurd h (by decide)
  · exact hv h

theorem parseFields_join (pairs : List (String × String)) :
    ∀ (pre : List Char), (∀ c ∈ pre, c = ' ') → pairs ≠ [] →
    (∀ kv ∈ pairs, ((Q : Char) ∉ (kv : String × String).1.data ∧
        (',' : Char) ∉ kv.1.data) ∧
      ((Q : Char) ∉ kv.2.data ∧ (',' : Char) ∉ kv.2.data)) →
    parseFields (pySplit ',' (pre ++ (pyJoin ", " (pairs.map
      (fun p => "\x27" ++ p.1 ++ "\x27: \x27" ++ p.2 ++ "\x27"))).data))
      = some pairs := by
  induction pairs with
  | nil => intro pre _ hne _; exact absurd rfl hne
  | cons kv rest ih =>
    intro pre hpre _ hclean
    obtain ⟨⟨hk1, hk2⟩, ⟨hv1, hv2⟩⟩ := hclean kv (List.mem_cons_self kv rest)
    have hprecomma : (',' : Char) ∉ pre :=
      fun h => absurd (hpre ',' h) (by decide)
    cases rest with
    | nil =>
      rw [List.map_singleton, pyJoin_single]
      rw [pySplit_no_sep ',' _ (by
        intro hc
        rcases List.mem_append.mp hc with h | h
        · exact hprecomma h
        · exact comma_not_mem_pairText kv.1 kv.2 hk2 hv2 h)]
      simp only [parseFields]
      rw [parseDictField_clean pre hpre kv.1 kv.2 hk1 hv1]
    | cons kv₂ rs =>
      rw [List.map_cons, List.map_cons, pyJoin_cons_cons]
      have hdata : ((("\x27" ++ kv.1 ++ "\x27: \x27" ++ kv.2 ++ "\x27") ++ ", "
          ++ pyJoin ", " (("\x27" ++ kv₂.1 ++ "\x27: \x27" ++ kv₂.2 ++ "\x27")
            :: rs.map (fun p => "\x27" ++ p.1 ++ "\x27: \x27" ++ p.2 ++ "\x27"))).data)
          = ("\x27" ++ kv.1 ++ "\x27: \x27" ++ kv.2 ++ "\x27").data
            ++ ',' :: ' ' :: (pyJoin ", " (("\x27" ++ kv₂.1 ++ "\x27: \x27"
              ++ kv₂.2 ++ "\x27")
            :: rs.map (fun p => "\x27" ++ p.1 ++ "\x27: \x27" ++ p.2 ++ "\x27"))).data := by
        rw [String.data_append, String.data_append]
        rw [show (", " : String).data = [',', ' '] from rfl]
        simp
      rw [hdata]
      rw [show pre ++ (("\x27" ++ kv.1 ++ "\x27: \x27" ++ kv.2 ++ "\x27").data
          ++ ',' :: ' ' :: (pyJoin ", " (("\x27" ++ kv₂.1 ++ "\x27: \x27"
            ++ kv₂.2 ++ "\x27")
          :: rs.map (fun p => "\x27" ++ p.1 ++ "\x27: \x27" ++ p.2 ++ "\x27"))).data)
        = (pre ++ ("\x27" ++ kv.1 ++ "\x27: \x27" ++ kv.2 ++ "\x27").data)
          ++ ',' :: ([' '] ++ (pyJoin ", " (("\x27" ++ kv₂.1 ++ "\x27: \x27"
            ++ kv₂.2 ++ "\x27")
          :: rs.map (fun p => "\x27" ++ p.1 ++ "\x27: \x27" ++ p.2 ++ "\x27"))).data)
        from by simp]
      rw [pySplit_append_sep ',' _ _ (by
        intro hc
        rcases List.mem_append.mp hc with h | h
        · exact hprecomma h
        · exact comma_not_mem_pairText kv.1 kv.2 hk2 hv2 h)]
      simp only [parseFields]
      rw [parseDictField_clean pre hpre kv.1 kv.2 hk1 hv1]
      rw [show ([' '] ++ (pyJoin ", " (("\x27" ++ kv₂.1 ++ "\x27: \x27"
            ++ kv₂.2 ++ "\x27")
          :: rs.map (fun p => "\x27" ++ p.1 ++ "\x27: \x27" ++ p.2 ++ "\x27"))).data)
        = ([' '] ++ (pyJoin ", " (((kv₂ :: rs).map (fun p => "\x27" ++ p.1
            ++ "\x27: \x27" ++ p.2 ++ "\x27")))).data) from by rw [List.map_cons]]
      rw [ih [' '] (by intro c hc; simpa using hc) (by simp)
        (fun x hx => hclean x (List.mem_cons_of_mem kv hx))]

theorem parseDict_pyStrDict (pairs : List (String × String))
    (hne : pairs ≠ [])
    (hclean : ∀ kv ∈ pairs, ((Q : Char) ∉ (kv : String × String).1.data ∧
        (',' : Char) ∉ kv.1.data) ∧
      ((Q : Char) ∉ kv.2.data ∧ (',' : Char) ∉ kv.2.data)) :
    parseDict (pyStrDict pairs).data = some pairs := by
  unfold pyStrDict parseDict
  have hdata : ("\x7b" ++ pyJoin ", " (pairs.map (fun p => "\x27" ++ p.1
      ++ "\x27: \x27" ++ p.2 ++ "\x27")) ++ "\x7d").data
      = ['\x7b'] ++ ((pyJoin ", " (pairs.map (fun p => "\x27" ++ p.1
          ++ "\x27: \x27" ++ p.2 ++ "\x27"))).data ++ ['\x7d']) := by
    rw [String.data_append, String.data_append]
    simp
  rw [hdata, dropPrefixChars_append]
  dsimp only
  rw [dropSuffixChars_append]
  dsimp only
  have := parseFields_join pairs [] (by simp) hne hclean
  rw [List.nil_append] at this
  exact this

end DictRoundTrip

section LineRoundTrip

/-- The serialized tail of a definition line after the closing quote of
the comment: empty, or comma-space and the rendered extras dict. -/
def extTail (mb : MaskBit) : List Char :=
  if mb.extra.length > 0 then ',' :: ' ' :: (pyStrDict mb.extra).data else []

/-- The characters of a serialized definition line between the opening
`  - [` and the closing bracket. -/
def lineCore (mb : MaskBit) : List Char :=
  mb.name.data ++ ',' :: (List.replicate (16 - (mb.name ++ ",").length) ' '
    ++ ' ' :: (List.replicate (2 - (String.mk (natToChars mb.bitnum)).length) ' '
    ++ (natToChars mb.bitnum ++ ',' :: ' ' :: '\"' :: (mb.comment.data
    ++ '\"' :: extTail mb))))

theorem reprLine_data (mb : MaskBit) :
    (reprLine mb).data = "  - [".data ++ (lineCore mb ++ [']']) := by
  unfold reprLine lineCore extTail padRight padLeft
  split
  · dsimp only
    repeat rw [String.data_append]
    rw [show ("," : String).data = [','] from rfl,
      show (" " : String).data = [' '] from rfl,
      show (", " : String).data = [',', ' '] from rfl,
      show (", \"" : String).data = [',', ' ', '\"'] from rfl,
      show ("\"" : String).data = ['\"'] from rfl,
      show ("]" : String).data = [']'] from rfl,
      show (String.mk (List.replicate (16 - (mb.name ++ ",").length) ' ')).data
        = List.replicate (16 - (mb.name ++ ",").length) ' ' from rfl,
      show (String.mk (List.replicate (2 - (String.mk
          (natToChars mb.bitnum)).length) ' ')).data
        = List.replicate (2 - (String.mk (natToChars mb.bitnum)).length) ' '
        from rfl,
      show (String.mk (natToChars mb.bitnum)).data = natToChars mb.bitnum
        from rfl]
    simp
  · dsimp only
    repeat rw [String.data_append]
    rw [show ("," : String).data = [','] from rfl,
      show (" " : String).data = [' '] from rfl,
      show (", \"" : String).data = [',', ' ', '\"'] from rfl,
      show ("\"" : String).data = ['\"'] from rfl,
      show ("]" : String).data = [']'] from rfl,
      show (String.mk (List.replicate (16 - (mb.name ++ ",").length) ' ')).data
        = List.replicate (16 - (mb.name ++ ",").length) ' ' from rfl,
      show (String.mk (List.replicate (2 - (String.mk
          (natToChars mb.bitnum)).length) ' ')).data
        = List.replicate (2 - (String.mk (natToChars mb.bitnum)).length) ' '
        from rfl,
      show (String.mk (natToChars mb.bitnum)).data = natToChars mb.bitnum
        from rfl]
    simp

theorem space_mem_pads (w : Nat) (c : Char)
    (hc : c ∈ List.replicate w ' ') : c = ' ' :=
  List.eq_of_mem_replicate hc

theorem parseLine_reprLine (mb : MaskBit)
    (hname : (',' : Char) ∉ mb.name.data)
    (hcomment : ('\"' : Char) ∉ mb.comment.data)
    (hextra : ∀ kv ∈ mb.extra, ((Q : Char) ∉ (kv : String × String).1.data ∧
        (',' : Char) ∉ kv.1.data) ∧
      ((Q : Char) ∉ kv.2.data ∧ (',' : Char) ∉ kv.2.data)) :
    parseLine (reprLine mb).data = some (rawOf mb) := by
  rw [reprLine_data]
  unfold parseLine
  rw [dropPrefixChars_append]
  dsimp only
  rw [dropSuffixChars_append]
  dsimp only
  unfold lineCore
  set pad1 := List.replicate (16 - (mb.name ++ ",").length) ' ' with hpad1
  set pad2 := List.replicate
    (2 - (String.mk (natToChars mb.bitnum)).length) ' ' with hpad2
  set digits := natToChars mb.bitnum with hdigits
  set ext := extTail mb with hext
  set R2 : List Char
    := ',' :: ' ' :: '\"' :: (mb.comment.data ++ '\"' :: ext) with hR2
  have hn := takeWhile_middle (fun c => c ≠ ',') mb.name.data ','
    (pad1 ++ ' ' :: (pad2 ++ (digits ++ R2)))
    (fun c hc => decide_eq_true (fun h => hname (h ▸ hc))) (by simp)
  rw [hn.1, hn.2]
  rw [show (',' :: (pad1 ++ ' ' :: (pad2 ++ (digits ++ R2))))
      = [','] ++ (pad1 ++ ' ' :: (pad2 ++ (digits ++ R2))) from rfl,
    dropPrefixChars_append]
  dsimp only
  obtain ⟨dh, dt, hd⟩ := List.exists_cons_of_ne_nil (natToChars_ne_nil mb.bitnum)
  rw [← hdigits] at hd
  have hdh : dh.isDigit = true := by
    refine natToChars_all_digit mb.bitnum dh ?_
    rw [← hdigits, hd]
    exact List.mem_cons_self dh dt
  have hsplit : pad1 ++ ' ' :: (pad2 ++ (digits ++ R2))
      = (pad1 ++ ' ' :: pad2) ++ dh :: (dt ++ R2) := by
    rw [hd]
    simp
  have hmid := takeWhile_middle (fun c => c = ' ') (pad1 ++ ' ' :: pad2) dh
    (dt ++ R2)
    (fun c hc => by
      rcases List.mem_append.mp hc with h | h
      · rw [space_mem_pads _ c h]; rfl
      · rcases List.mem_cons.mp h with h | h
        · rw [h]; rfl
        · rw [space_mem_pads _ c h]; rfl)
    (decide_eq_false (fun h : dh = ' ' => by rw [h] at hdh; cases hdh))
  rw [hsplit, hmid.2]
  rw [show dh :: (dt ++ R2) = digits ++ R2 from by rw [hd]; simp]
  have hdigall : ∀ c ∈ digits, c.isDigit = true := by
    rw [hdigits]
    exact natToChars_all_digit mb.bitnum
  have hdig := takeWhile_middle Char.isDigit digits ','
    (' ' :: '\"' :: (mb.comment.data ++ '\"' :: ext)) hdigall (by decide)
  rw [show digits ++ R2 = digits ++ ','
      :: (' ' :: '\"' :: (mb.comment.data ++ '\"' :: ext)) from by rw [hR2]]
  rw [hdig.1, hdig.2]
  rw [if_neg (by rw [hdigits]; exact natToChars_ne_nil mb.bitnum)]
  rw [show (',' :: (' ' :: '\"' :: (mb.comment.data ++ '\"' :: ext)))
      = [',', ' ', '\"'] ++ (mb.comment.data ++ '\"' :: ext) from rfl,
    dropPrefixChars_append]
  dsimp only
  have hcm := takeWhile_middle (fun c => c ≠ '\"') mb.comment.data '\"' ext
    (fun c hc => decide_eq_true (fun h => hcomment (h ▸ hc))) (by simp)
  rw [hcm.1, hcm.2]
  rw [show ('\"' :: ext) = ['\"'] ++ ext from rfl, dropPrefixChars_append]
  dsimp only
  have hpe : parseExtraPart ext = some (rawOf mb).extra4 := by
    by_cases hlen : mb.extra.length > 0
    · have hextne : mb.extra ≠ [] := by
        intro h
        rw [h] at hlen
        simp at hlen
      rw [hext]
      unfold extTail
      rw [if_pos hlen]
      unfold parseExtraPart
      dsimp only
      rw [show (',' :: ' ' :: (pyStrDict mb.extra).data)
          = [',', ' '] ++ (pyStrDict mb.extra).data from rfl,
        dropPrefixChars_append]
      dsimp only
      rw [parseDict_pyStrDict mb.extra hextne hextra]
      unfold rawOf
      rw [if_pos hlen]
    · rw [hext]
      unfold extTail
      rw [if_neg hlen]
      unfold rawOf
      rw [if_neg hlen]
      rfl
  rw [hpe]
  dsimp only
  rw [show parseNat digits = mb.bitnum from by
    rw [hdigits]; exact parseNat_natToChars mb.bitnum]
  rfl

end LineRoundTrip

theorem names_none_char (nm : String) (defs : List RawEntry) (m : BitMask)
    (hm : BitMask.init nm [(nm, defs)] = .ok m)
    (hnums : (defs.map (fun e => e.bitnum)).Nodup) :
    m.names none
      = (List.insertionSort (· ≤ ·) (defs.map (fun e => e.bitnum))).map
          (nameAt defs) := by
  obtain ⟨-, -, hins, -⟩ := init_single_ok nm defs m hm
  have hkeys : intKeys m._bits = defs.map (fun e => e.bitnum) := by
    rw [hins]
    have hstep := intKeys_insertFold [] defs (by
      rw [show intKeys [] = ([] : List Nat) from rfl, List.nil_append]
      exact hnums)
    rw [hstep]
    rw [show intKeys [] = ([] : List Nat) from rfl, List.nil_append]
  show (List.insertionSort (· ≤ ·) (intKeys m._bits)).filterMap
      (fun b => (dictFind m._bits (.num b)).map (fun mb => mb.name)) = _
  rw [hkeys]
  refine filterMap_eq_map_of _ _ _ ?_
  intro b hb
  have hbmem : b ∈ defs.map (fun e => e.bitnum) :=
    (List.perm_insertionSort (· ≤ ·) (defs.map (fun e => e.bitnum))).subset hb
  obtain ⟨e, hemem, hebit⟩ := List.mem_map.mp hbmem
  have hfind : dictFind m._bits (.num b)
      = (defs.find? (fun e => e.bitnum = b)).map mkOf := by
    rw [hins, dictFind_insertFold_num]
    rw [show dictFind ([] : List (BitsKey × MaskBit)) (.num b) = none from rfl,
      Option.or_none]
    rw [find?_reverse_of_nodup (fun e : RawEntry => e.bitnum) hnums b]
  rw [hfind]
  cases hf : defs.find? (fun e => e.bitnum = b) with
  | none =>
    rw [List.find?_eq_none] at hf
    exact absurd (by simpa using hebit) (by simpa using hf e hemem)
  | some eb =>
    unfold nameAt
    rw [hf]
    rfl

theorem names_none_perm (defs defs' : List RawEntry) (hperm : defs.Perm defs')
    (hnums : (defs.map (fun e => e.bitnum)).Nodup) :
    (List.insertionSort (· ≤ ·) (defs.map (fun e => e.bitnum))).map (nameAt defs)
      = (List.insertionSort (· ≤ ·) (defs'.map (fun e => e.bitnum))).map
          (nameAt defs') := by
  have hsorteq : List.insertionSort (· ≤ ·) (defs.map (fun e => e.bitnum))
      = List.insertionSort (· ≤ ·) (defs'.map (fun e => e.bitnum)) := by
    refine @List.eq_of_perm_of_sorted Nat (· ≤ ·) inferInstance _ _ ?_ ?_ ?_
    · exact (List.perm_insertionSort _ _).trans
        ((hperm.map _).trans (List.perm_insertionSort _ _).symm)
    · exact List.sorted_insertionSort _ _
    · exact List.sorted_insertionSort _ _
  rw [← hsorteq]
  apply List.map_congr_left
  intro b _
  unfold nameAt
  rw [find?_keyEq_of_perm (fun e : RawEntry => e.bitnum) hperm hnums b]


section FileRoundTrip

/-- Strings of a bit definition that survive the serialize-parse round
trip: the name must not contain the field separator or a newline, the
comment must not contain the quote delimiter or a newline, and extra
keys and values must not contain the apostrophe delimiter, the comma
separator, or a newline. -/
def cleanBit (mb : MaskBit) : Prop :=
  ((',' : Char) ∉ mb.name.data ∧ ('\n' : Char) ∉ mb.name.data) ∧
  (('\"' : Char) ∉ mb.comment.data ∧ ('\n' : Char) ∉ mb.comment.data) ∧
  (∀ kv ∈ mb.extra,
    ((Q : Char) ∉ (kv : String × String).1.data ∧ (',' : Char) ∉ kv.1.data ∧
      ('\n' : Char) ∉ kv.1.data) ∧
    ((Q : Char) ∉ kv.2.data ∧ (',' : Char) ∉ kv.2.data ∧
      ('\n' : Char) ∉ kv.2.data))

/-- The same delimiter-freedom conditions, on a raw definition entry. -/
def cleanEntry (e : RawEntry) : Prop := cleanBit (mkOf e)

instance (mb : MaskBit) : Decidable (cleanBit mb) := by
  unfold cleanBit
  infer_instance

instance (e : RawEntry) : Decidable (cleanEntry e) := by
  unfold cleanEntry cleanBit
  infer_instance

theorem mem_pyJoin (sepStr : String) (texts : List String) (c : Char)
    (hc : c ∈ (pyJoin sepStr texts).data) :
    (∃ t ∈ texts, c ∈ t.data) ∨ c ∈ sepStr.data := by
  induction texts with
  | nil => cases hc
  | cons x rest ih =>
    cases rest with
    | nil =>
      rw [pyJoin_single] at hc
      exact Or.inl ⟨x, List.mem_cons_self x [], hc⟩
    | cons y rs =>
      rw [pyJoin_cons_cons, String.data_append, String.data_append] at hc
      rcases List.mem_append.mp hc with h | h
      · rcases List.mem_append.mp h with h | h
        · exact Or.inl ⟨x, List.mem_cons_self x (y :: rs), h⟩
        · exact Or.inr h
      · rcases ih h with ⟨t, ht, hct⟩ | h
        · exact Or.inl ⟨t, List.mem_cons_of_mem x ht, hct⟩
        · exact Or.inr h

theorem mem_pyStrDict (pairs : List (String × String)) (c : Char)
    (hc : c ∈ (pyStrDict pairs).data) :
    c = '\x7b' ∨ c = '\x7d' ∨ c = ',' ∨ c = ' ' ∨ c = Q ∨ c = ':' ∨
      (∃ kv ∈ pairs, c ∈ (kv : String × String).1.data ∨ c ∈ kv.2.data) := by
  unfold pyStrDict at hc
  rw [String.data_append, String.data_append] at hc
  rcases List.mem_append.mp hc with h | h
  · rcases List.mem_append.mp h with h | h
    · rw [show ("\x7b" : String).data = ['\x7b'] from rfl,
        List.mem_singleton] at h
      exact Or.inl h
    · rcases mem_pyJoin ", " _ c h with ⟨t, ht, hct⟩ | h
      · obtain ⟨kv, hkv, hte⟩ := List.mem_map.mp ht
        rw [← hte] at hct
        rcases mem_pairText_data kv.1 kv.2 c hct with h | h | h | h | h
        · exact Or.inr (Or.inr (Or.inr (Or.inr (Or.inl h))))
        · exact Or.inr (Or.inr (Or.inr (Or.inr (Or.inr (Or.inr
            ⟨kv, hkv, Or.inl h⟩)))))
        · exact Or.inr (Or.inr (Or.inr (Or.inr (Or.inr (Or.inl h)))))
        · exact Or.inr (Or.inr (Or.inr (Or.inl h)))
        · exact Or.inr (Or.inr (Or.inr (Or.inr (Or.inr (Or.inr
            ⟨kv, hkv, Or.inr h⟩)))))
      · rw [show (", " : String).data = [',', ' '] from rfl] at h
        rcases List.mem_cons.mp h with h | h
        · exact Or.inr (Or.inr (Or.inl h))
        · rw [List.mem_singleton] at h
          exact Or.inr (Or.inr (Or.inr (Or.inl h)))
  · rw [show ("\x7d" : String).data = ['\x7d'] from rfl,
      List.mem_singleton] at h
    exact Or.inr (Or.inl h)

theorem newline_not_mem_reprLine (mb : MaskBit) (hclean : cleanBit mb) :
    ('\n' : Char) ∉ (reprLine mb).data := by
  obtain ⟨⟨-, hname⟩, ⟨-, hcomment⟩, hextra⟩ := hclean
  rw [reprLine_data]
  intro hc
  rcases List.mem_append.mp hc with h | h
  · exact absurd h (by decide)
  rcases List.mem_append.mp h with h | h
  · unfold lineCore at h
    rcases List.mem_append.mp h with h | h
    · exact hname h
    rcases List.mem_cons.mp h with h | h
    · exact absurd h (by decide)
    rcases List.mem_append.mp h with h | h
    · exact absurd (space_mem_pads _ _ h) (by decide)
    rcases List.mem_cons.mp h with h | h
    · exact absurd h (by decide)
    rcases List.mem_append.mp h with h | h
    · exact absurd (space_mem_pads _ _ h) (by decide)
    rcases List.mem_append.mp h with h | h
    · have := natToChars_all_digit mb.bitnum _ h
      rw [show ('\n' : Char).isDigit = false from rfl] at this
      cases this
    rcases List.mem_cons.mp h with h | h
    · exact absurd h (by decide)
    rcases List.mem_cons.mp h with h | h
    · exact absurd h (by decide)
    rcases List.mem_cons.mp h with h | h
    · exact absurd h (by decide)
    rcases List.mem_append.mp h with h | h
    · exact hcomment h
    rcases List.mem_cons.mp h with h | h
    · exact absurd h (by decide)
    · unfold extTail at h
      by_cases hlen : mb.extra.length > 0
      · rw [if_pos hlen] at h
        rcases List.mem_cons.mp h with h | h
        · exact absurd h (by decide)
        rcases List.mem_cons.mp h with h | h
        · exact absurd h (by decide)
        rcases mem_pyStrDict mb.extra _ h with h | h | h | h | h | h | h
        · exact absurd h (by decide)
        · exact absurd h (by decide)
        · exact absurd h (by decide)
        · exact absurd h (by decide)
        · exact absurd h (by decide)
        · exact absurd h (by decide)
        · obtain ⟨kv, hkv, hmem⟩ := h
          obtain ⟨⟨-, -, hk⟩, ⟨-, -, hv⟩⟩ := hextra kv hkv
          rcases hmem with h | h
          · exact hk h
          · exact hv h
      · rw [if_neg hlen] at h
        cases h
  · rw [List.mem_singleton] at h
    exact absurd h (by decide)

theorem parseLines_map (mbs : List MaskBit)
    (hclean : ∀ mb ∈ mbs, cleanBit mb) :
    parseLines (mbs.map (fun mb => (reprLine mb).data))
      = some (mbs.map rawOf) := by
  induction mbs with
  | nil => rfl
  | cons mb rest ih =>
    obtain ⟨⟨hn, -⟩, ⟨hcm, -⟩, hex⟩ := hclean mb (List.mem_cons_self mb rest)
    rw [List.map_cons, List.map_cons]
    simp only [parseLines]
    rw [parseLine_reprLine mb hn hcm (fun kv hkv => by
      obtain ⟨⟨h1, h2, -⟩, ⟨h3, h4, -⟩⟩ := hex kv hkv
      exact ⟨⟨h1, h2⟩, ⟨h3, h4⟩⟩)]
    rw [ih (fun x hx => hclean x (List.mem_cons_of_mem mb hx))]

/-- The definition entry registered at a bit position (used to state the
round-trip result). -/
def eDefAt (defs : List RawEntry) (b : Nat) : RawEntry :=
  (defs.find? (fun e => e.bitnum = b)).getD ⟨"", 0, "", none⟩

theorem eDefAt_bitnum (defs : List RawEntry)
    (hnums : (defs.map (fun e => e.bitnum)).Nodup) (e : RawEntry)
    (he : e ∈ defs) : eDefAt defs e.bitnum = e := by
  unfold eDefAt
  cases hf : defs.find? (fun x => x.bitnum = e.bitnum) with
  | none =>
    rw [List.find?_eq_none] at hf
    have hFalse : False := by simpa using hf e he
    exact hFalse.elim
  | some e2 =>
    have he2 : e2.bitnum = e.bitnum := by simpa using List.find?_some hf
    have he2mem : e2 ∈ defs := List.mem_of_find?_eq_some hf
    rw [Option.getD_some]
    exact List.inj_on_of_nodup_map hnums he2mem he he2

theorem reprStr_char (nm : String) (defs : List RawEntry) (m : BitMask)
    (hm : BitMask.init nm [(nm, defs)] = .ok m)
    (hnums : (defs.map (fun e => e.bitnum)).Nodup) :
    m.reprStr = pyJoin "\n" ((nm ++ ":") ::
      (List.insertionSort (· ≤ ·) (defs.map (fun e => e.bitnum))).map
        (fun b => reprLine (mkOf (eDefAt defs b)))) := by
  obtain ⟨-, hnm, hins, -⟩ := init_single_ok nm defs m hm
  have hkeys : intKeys m._bits = defs.map (fun e => e.bitnum) := by
    rw [hins]
    have hstep := intKeys_insertFold [] defs (by
      rw [show intKeys [] = ([] : List Nat) from rfl, List.nil_append]
      exact hnums)
    rw [hstep]
    rw [show intKeys [] = ([] : List Nat) from rfl, List.nil_append]
  show pyJoin "\n" ((m._name ++ ":") ::
      (List.insertionSort (· ≤ ·) (intKeys m._bits)).filterMap
        (fun b => (dictFind m._bits (.num b)).map reprLine)) = _
  rw [hnm, hkeys]
  congr 1
  congr 1
  refine filterMap_eq_map_of _ _ _ ?_
  intro b hb
  have hbmem : b ∈ defs.map (fun e => e.bitnum) :=
    (List.perm_insertionSort (· ≤ ·) (defs.map (fun e => e.bitnum))).subset hb
  obtain ⟨e, hemem, hebit⟩ := List.mem_map.mp hbmem
  have hfind : dictFind m._bits (.num b)
      = (defs.find? (fun e => e.bitnum = b)).map mkOf := by
    rw [hins, dictFind_insertFold_num]
    rw [show dictFind ([] : List (BitsKey × MaskBit)) (.num b) = none from rfl,
      Option.or_none]
    rw [find?_reverse_of_nodup (fun e : RawEntry => e.bitnum) hnums b]
  rw [hfind]
  cases hf : defs.find? (fun e => e.bitnum = b) with
  | none =>
    rw [List.find?_eq_none] at hf
    exact absurd (by simpa using hebit) (by simpa using hf e hemem)
  | some eb =>
    unfold eDefAt
    rw [hf]
    rfl

theorem parse_reprStr (nm : String) (defs : List RawEntry) (m : BitMask)
    (hm : BitMask.init nm [(nm, defs)] = .ok m)
    (hnm : ('\n' : Char) ∉ nm.data)
    (hnums : (defs.map (fun e => e.bitnum)).Nodup)
    (hclean : ∀ e ∈ defs, cleanEntry e) :
    parse m.reprStr = some [(nm,
      (List.insertionSort (· ≤ ·) (defs.map (fun e => e.bitnum))).map
        (fun b => rawOf (mkOf (eDefAt defs b))))] := by
  rw [reprStr_char nm defs m hm hnums]
  unfold parse
  have hlinesclean : ∀ l ∈ ((nm ++ ":") ::
      (List.insertionSort (· ≤ ·) (defs.map (fun e => e.bitnum))).map
        (fun b => reprLine (mkOf (eDefAt defs b)))), ('\n' : Char) ∉ l.data := by
    intro l hl
    rcases List.mem_cons.mp hl with hl | hl
    · rw [hl, String.data_append]
      intro hc
      rcases List.mem_append.mp hc with h | h
      · exact hnm h
      · rw [show (":" : String).data = [':'] from rfl, List.mem_singleton] at h
        exact absurd h (by decide)
    · obtain ⟨b, hb, hbl⟩ := List.mem_map.mp hl
      rw [← hbl]
      have hbmem : b ∈ defs.map (fun e => e.bitnum) :=
        (List.perm_insertionSort (· ≤ ·) _).subset hb
      obtain ⟨e, hemem, hebit⟩ := List.mem_map.mp hbmem
      refine newline_not_mem_reprLine _ ?_
      have : eDefAt defs b = e := by
        rw [← hebit]
        exact eDefAt_bitnum defs hnums e hemem
      rw [this]
      exact hclean e hemem
  rw [pySplit_pyJoin_data '\n' "\n" rfl _ (by simp) hlinesclean]
  rw [List.map_cons]
  dsimp only
  have hhdr : dropSuffixChars [':'] ((nm ++ ":")).data = some nm.data := by
    rw [String.data_append, show (":" : String).data = [':'] from rfl]
    exact dropSuffixChars_append [':'] nm.data
  rw [hhdr]
  rw [show ((List.insertionSort (· ≤ ·) (defs.map (fun e => e.bitnum))).map
        (fun b => reprLine (mkOf (eDefAt defs b)))).map (fun l => l.data)
      = ((List.insertionSort (· ≤ ·) (defs.map (fun e => e.bitnum))).map
        (fun b => mkOf (eDefAt defs b))).map (fun mb => (reprLine mb).data)
      from by rw [List.map_map, List.map_map]; rfl]
  rw [parseLines_map _ (fun mb hmb => by
    obtain ⟨b, hb, hbe⟩ := List.mem_map.mp hmb
    have hbmem : b ∈ defs.map (fun e => e.bitnum) :=
      (List.perm_insertionSort (· ≤ ·) _).subset hb
    obtain ⟨e, hemem, hebit⟩ := List.mem_map.mp hbmem
    have heq : eDefAt defs b = e := by
      rw [← hebit]
      exact eDefAt_bitnum defs hnums e hemem
    rw [← hbe, heq]
    exact hclean e hemem)]
  rw [List.map_map]
  rfl

theorem init_single_ok_of_valid (nm : String) (entries : List RawEntry)
    (h : ∀ e ∈ entries, entryOk e) :
    BitMask.init nm [(nm, entries)] = .ok ⟨nm, insertFold [] entries⟩ := by
  unfold BitMask.init
  rw [show dictFind [(nm, entries)] nm = some entries from by
    simp [dictFind, List.find?]]
  dsimp only
  rw [buildBits_ok_of_valid [] entries h]

theorem mkOf_rawOf_mkOf (e : RawEntry) : mkOf (rawOf (mkOf e)) = mkOf e := by
  unfold rawOf
  split
  · rfl
  · rename_i h
    have hnil : extraOf e = [] := by
      cases hx : (mkOf e).extra with
      | nil => exact hx
      | cons a l => rw [hx] at h; simp at h
    simp only [mkOf, extraOf, hnil]
    exact congrArg _ hnil.symm

theorem entryOk_rawOf_mkOf (e : RawEntry) (h : entryOk e) :
    entryOk (rawOf (mkOf e)) := by
  unfold rawOf
  split
  · show firstCollision (extraOf e) maskBitBaseAttributes = none
    unfold entryOk at h
    cases h4 : e.extra4 with
    | none =>
      rw [show extraOf e = [] from by simp [extraOf, h4]]
      rfl
    | some ex =>
      cases ex with
      | dict ps =>
        rw [h4] at h
        rw [show extraOf e = ps from by simp [extraOf, h4]]
        exact h
      | nonDict v =>
        rw [h4] at h
        exact (h : False).elim
  · trivial

end FileRoundTrip

section ClaimSupport

theorem firstCollision_ne_none (ps : List (String × String))
    (seen : List String) (k v : String) (hkv : (k, v) ∈ ps)
    (hk : k ∈ seen) : firstCollision ps seen ≠ none := by
  induction ps generalizing seen with
  | nil => cases hkv
  | cons p rest ih =>
    obtain ⟨k0, v0⟩ := p
    unfold firstCollision
    by_cases h0 : k0 ∈ seen
    · rw [if_pos h0]
      simp
    · rw [if_neg h0]
      rcases List.mem_cons.mp hkv with h | h
      · injection h with h1 h2
        subst h1
        exact absurd hk h0
      · exact ih (k0 :: seen) h (List.mem_cons_of_mem k0 hk)

theorem map_mkOf_eq_some {o : Option RawEntry} {mb : MaskBit}
    (h : o.map mkOf = some mb) : ∃ e, o = some e ∧ mkOf e = mb := by
  cases o with
  | none => cases h
  | some e =>
    refine ⟨e, rfl, ?_⟩
    injection h

theorem string_mk_data (s : String) : String.mk s.data = s := rfl

theorem maskFold_cons (m : BitMask) (n : String) (rest : List String)
    (acc : Nat) (mb : MaskBit) (h : m.getitem (.str n) = .ok mb) :
    maskFold m (n :: rest) acc = maskFold m rest (acc ||| mb.mask) := by
  simp only [maskFold, h]

theorem maskOf_single (m : BitMask) (n : String) (mb : MaskBit)
    (hn : m.getitem (.str n) = .ok mb) (hsep : ('|' : Char) ∉ n.data) :
    m.maskOf (.str n) = .ok mb.mask := by
  have hdef : m.maskOf (.str n)
      = maskFold m ((pySplit '|' n.data).map (fun cs => String.mk cs)) 0 := rfl
  rw [hdef, pySplit_no_sep '|' n.data hsep]
  rw [show ([n.data].map (fun cs => String.mk cs)) = [n] from by
    simp [string_mk_data]]
  rw [maskFold_cons m n [] 0 mb hn]
  unfold maskFold
  rw [Nat.zero_or]

end ClaimSupport

/-- The ccdmask example registry of the repository doctests and tests:
bits BAD=0, HOT=1 (with extra attribute blat=foo), DEAD=2, SATURATED=3,
COSMIC=4. -/
def ccdmaskDefs : List RawEntry :=
  [⟨"BAD", 0, "Pre-determined bad pixel (any reason)", none⟩,
   ⟨"HOT", 1, "Hot pixel", some (.dict [("blat", "foo")])⟩,
   ⟨"DEAD", 2, "Dead pixel", none⟩,
   ⟨"SATURATED", 3, "Saturated pixel from object", none⟩,
   ⟨"COSMIC", 4, "Cosmic ray", none⟩]

/-- The definition table holding the ccdmask entries. -/
def ccdmaskTable : List (String × List RawEntry) := [("ccdmask", ccdmaskDefs)]

/-- The ccdmask registry itself (its construction succeeds, as the
witnesses check by `rfl`). -/
def ccdmaskReg : BitMask :=
  ((BitMask.init "ccdmask" ccdmaskTable).toOption).getD ⟨"", []⟩

/-- C2: constructing a registry from a table in which some entry carries
an extra-attributes mapping with a key equal to one of the reserved
attribute names (`name`, `bitnum` for bitPosition, `mask` for maskValue,
`comment`) fails with a construction-time validation error, and no
registry is produced. -/
theorem claim_C2_reserved_key_rejection (nm : String) (defs : List RawEntry)
    (e : RawEntry) (ps : List (String × String)) (k v : String)
    (he : e ∈ defs) (h4 : e.extra4 = some (.dict ps)) (hkv : (k, v) ∈ ps)
    (hres : k ∈ ["name", "bitnum", "mask", "comment"]) :
    ∃ err, BitMask.init nm [(nm, defs)] = .error err ∧
      err.isValidationError = true := by
  refine init_fails_of_invalid nm defs e he ?_
  intro hok
  unfold entryOk at hok
  rw [h4] at hok
  have hkbase : k ∈ maskBitBaseAttributes := by
    unfold maskBitBaseAttributes
    rw [List.mem_append]
    right
    simp only [List.mem_cons, List.not_mem_nil, or_false] at hres ⊢
    tauto
  exact firstCollision_ne_none ps maskBitBaseAttributes k v hkv hkbase hok

theorem claim_C2_witness :
    ∃ err, BitMask.init "ccdmask"
      [("ccdmask", [⟨"BAD", 0, "c", some (.dict [("mask", "foo")])⟩])]
        = .error err ∧ err.isValidationError = true :=
  claim_C2_reserved_key_rejection "ccdmask"
    [⟨"BAD", 0, "c", some (.dict [("mask", "foo")])⟩]
    ⟨"BAD", 0, "c", some (.dict [("mask", "foo")])⟩
    [("mask", "foo")] "mask" "foo"
    (List.mem_singleton.mpr rfl) rfl
    (List.mem_singleton.mpr rfl) (by decide)

/-- C7: constructing a registry from a table in which some entry has a
4th element that is not a mapping (here a raw integer) fails with a
construction-time validation error (`ValueError` in the source, the
`ValidationError` of the spec), and no registry is produced. -/
theorem claim_C7_malformed_extras (nm : String) (defs : List RawEntry)
    (e : RawEntry) (v : Int) (he : e ∈ defs)
    (h4 : e.extra4 = some (.nonDict v)) :
    ∃ err, BitMask.init nm [(nm, defs)] = .error err ∧
      err.isValidationError = true := by
  refine init_fails_of_invalid nm defs e he ?_
  intro hok
  unfold entryOk at hok
  rw [h4] at hok
  exact hok

theorem claim_C7_witness :
    ∃ err, BitMask.init "ccdmask"
      [("ccdmask", [⟨"BAD", 0, "Pre-determined bad pixel (any reason)", none⟩,
                    ⟨"HOT", 1, "Hot pixel", some (.nonDict 1)⟩])]
        = .error err ∧ err.isValidationError = true :=
  claim_C7_malformed_extras "ccdmask"
    [⟨"BAD", 0, "Pre-determined bad pixel (any reason)", none⟩,
     ⟨"HOT", 1, "Hot pixel", some (.nonDict 1)⟩]
    ⟨"HOT", 1, "Hot pixel", some (.nonDict 1)⟩ 1
    (by decide) rfl

/-- C10: because `_MaskBit` subclasses `int`, the `hasattr` collision
check rejects an extra-attribute key equal to any attribute an int
instance already has — in particular every built-in integer attribute
(`real`, `imag`, `numerator`, `denominator`, `bit_length`, ...), not only
the four reserved names; construction fails and no registry is
produced. -/
theorem claim_C10_int_attribute_collision (nm : String)
    (defs : List RawEntry) (e : RawEntry) (ps : List (String × String))
    (k v : String) (he : e ∈ defs) (h4 : e.extra4 = some (.dict ps))
    (hkv : (k, v) ∈ ps) (hk : k ∈ intAttributes) :
    ∃ err, BitMask.init nm [(nm, defs)] = .error err ∧
      err.isValidationError = true := by
  refine init_fails_of_invalid nm defs e he ?_
  intro hok
  unfold entryOk at hok
  rw [h4] at hok
  have hkbase : k ∈ maskBitBaseAttributes := by
    unfold maskBitBaseAttributes
    rw [List.mem_append]
    exact Or.inl hk
  exact firstCollision_ne_none ps maskBitBaseAttributes k v hkv hkbase hok

theorem claim_C10_witness :
    ∃ err, BitMask.init "ccdmask"
      [("ccdmask", [⟨"BAD", 0, "comment", some (.dict [("real", "foo")])⟩])]
        = .error err ∧ err.isValidationError = true :=
  claim_C10_int_attribute_collision "ccdmask"
    [⟨"BAD", 0, "comment", some (.dict [("real", "foo")])⟩]
    ⟨"BAD", 0, "comment", some (.dict [("real", "foo")])⟩
    [("real", "foo")] "real" "foo"
    (List.mem_singleton.mpr rfl) rfl
    (List.mem_singleton.mpr rfl) (by decide)

/-- C4 (amended): for every registry and every registered name n not
containing the separator character, the mask value of n is 2 to the
bitNumber of n, and the integer-key lookup of that bit number yields the
same mask value.  The restriction is forced by the counterexample: a
registered name containing the separator is split by `mask` and does not
obey either equation. -/
theorem claim_C4_mask_consistency (nm : String) (defs : List RawEntry)
    (m : BitMask) (n : String) (mb : MaskBit)
    (hm : BitMask.init nm [(nm, defs)] = .ok m)
    (hn : m.getitem (.str n) = .ok mb)
    (hsep : ('|' : Char) ∉ n.data) :
    m.maskOf (.str n) = .ok (2 ^ mb.bitnum) ∧
    m.bitnumOf n = .ok mb.bitnum ∧
    m.maskOf (.num mb.bitnum) = .ok (2 ^ mb.bitnum) := by
  have hfind := getitem_str_ok_inv m n mb hn
  rw [dictFind_bits_str nm defs m hm n] at hfind
  obtain ⟨e, hef, hemk⟩ := map_mkOf_eq_some hfind
  have hmask : mb.mask = 2 ^ mb.bitnum := by
    rw [← hemk]
    rfl
  refine ⟨?_, ?_, ?_⟩
  · rw [maskOf_single m n mb hn hsep, hmask]
  · unfold BitMask.bitnumOf
    rw [hn]
    rfl
  · have hdef : m.maskOf (.num mb.bitnum)
        = (m.getitem (.num mb.bitnum)).map (fun x => x.mask) := rfl
    rw [hdef]
    have hbnum : e.bitnum = mb.bitnum := by rw [← hemk]; rfl
    have hmem : e ∈ defs.reverse := List.mem_of_find?_eq_some hef
    have hsome : ((defs.reverse.find? (fun x => x.bitnum = mb.bitnum))).isSome := by
      rw [List.find?_isSome]
      exact ⟨e, hmem, by simp [hbnum]⟩
    cases hf : defs.reverse.find? (fun x => x.bitnum = mb.bitnum) with
    | none => rw [hf] at hsome; simp at hsome
    | some e2 =>
      have he2 : e2.bitnum = mb.bitnum := by simpa using List.find?_some hf
      unfold BitMask.getitem
      rw [dictFind_bits_num nm defs m hm mb.bitnum, hf]
      simp [mkOf, he2]
      rfl

theorem claim_C4_witness :
    ccdmaskReg.maskOf (.str "COSMIC") = .ok (2 ^ 4) ∧
    ccdmaskReg.bitnumOf "COSMIC" = .ok 4 ∧
    ccdmaskReg.maskOf (.num 4) = .ok (2 ^ 4) :=
  claim_C4_mask_consistency "ccdmask" ccdmaskDefs ccdmaskReg "COSMIC"
    ⟨16, "COSMIC", 4, 16, "Cosmic ray", []⟩ rfl rfl (by decide)

/-- A definition table registering a bit whose name contains the mask
expression separator: bits A at position 0, B at position 1, and a bit
literally named A|B at position 2. -/
def pipeDefs : List RawEntry :=
  [⟨"A", 0, "bit a", none⟩,
   ⟨"B", 1, "bit b", none⟩,
   ⟨"A|B", 2, "bit with a pipe in its name", none⟩]

/-- The registry built from `pipeDefs` (construction succeeds: nothing
stops a bit name from containing the separator). -/
def pipeReg : BitMask :=
  ((BitMask.init "pipe" [("pipe", pipeDefs)]).toOption).getD ⟨"", []⟩

/-- C4 counterexample: the name A|B is registered at bit position 2, yet
`mask` splits every string argument on the separator, so
maskValue(A|B) returns the OR of the masks of A and B — 3 — instead
of 2 to the bit number of the registered name A|B, which is 4; the
integer-key lookup of that bit number also returns 4, so both equations
of the claim fail at this registered name. -/
theorem claim_C4_counterexample :
    BitMask.init "pipe" [("pipe", pipeDefs)] = .ok pipeReg ∧
    pipeReg.getitem (.str "A|B")
      = .ok ⟨4, "A|B", 2, 4, "bit with a pipe in its name", []⟩ ∧
    pipeReg.bitnumOf "A|B" = .ok 2 ∧
    pipeReg.maskOf (.str "A|B") = .ok 3 ∧
    pipeReg.maskOf (.num 2) = .ok 4 ∧
    (3 : Nat) ≠ 2 ^ 2 :=
  ⟨rfl, rfl, rfl, rfl, rfl, by decide⟩

/-- C5: for any two registered names A and B free of the separator
character, the mask value of the expression A|B is the bitwise OR of the
two mask values; a single name is the degenerate case of the same
splitting rule. -/
theorem claim_C5_combination (m : BitMask) (A B : String) (ma mb : MaskBit)
    (hA : m.getitem (.str A) = .ok ma) (hB : m.getitem (.str B) = .ok mb)
    (hsA : ('|' : Char) ∉ A.data) (hsB : ('|' : Char) ∉ B.data) :
    m.maskOf (.str (A ++ "|" ++ B)) = .ok (ma.mask ||| mb.mask) ∧
    m.maskOf (.str A) = .ok ma.mask ∧
    m.maskOf (.str B) = .ok mb.mask := by
  refine ⟨?_, maskOf_single m A ma hA hsA, maskOf_single m B mb hB hsB⟩
  have hbar : ("|" : String).data = ['|'] := rfl
  have hdata : (A ++ "|" ++ B).data = A.data ++ ('|' :: B.data) := by
    rw [String.data_append, String.data_append, hbar]
    simp
  have hdef : m.maskOf (.str (A ++ "|" ++ B))
      = maskFold m ((pySplit '|' (A ++ "|" ++ B).data).map
          (fun cs => String.mk cs)) 0 := rfl
  rw [hdef, hdata, pySplit_append_sep '|' A.data B.data hsA,
    pySplit_no_sep '|' B.data hsB]
  rw [show ([A.data, B.data].map (fun cs => String.mk cs)) = [A, B] from by
    simp [string_mk_data]]
  rw [maskFold_cons m A [B] 0 ma hA,
    maskFold_cons m B [] (0 ||| ma.mask) mb hB]
  unfold maskFold
  rw [Nat.zero_or]

theorem claim_C5_witness :
    ccdmaskReg.maskOf (.str ("BAD" ++ "|" ++ "COSMIC")) = .ok (1 ||| 16) ∧
    ccdmaskReg.maskOf (.str "BAD") = .ok 1 ∧
    ccdmaskReg.maskOf (.str "COSMIC") = .ok 16 :=
  claim_C5_combination ccdmaskReg "BAD" "COSMIC"
    ⟨1, "BAD", 0, 1, "Pre-determined bad pixel (any reason)", []⟩
    ⟨16, "COSMIC", 4, 16, "Cosmic ray", []⟩
    rfl rfl (by decide) (by decide)

/-- C6: in a registry built from entries with pairwise-distinct names and
pairwise-distinct bit positions, looking a registered name up gives a bit
number whose name lookup returns the original name. -/
theorem claim_C6_name_number_roundtrip (nm : String) (defs : List RawEntry)
    (m : BitMask) (n : String) (mb : MaskBit)
    (hm : BitMask.init nm [(nm, defs)] = .ok m)
    (_hnames : (defs.map (fun e => e.bitname)).Nodup)
    (hnums : (defs.map (fun e => e.bitnum)).Nodup)
    (hn : m.getitem (.str n) = .ok mb) :
    m.bitnumOf n = .ok mb.bitnum ∧ m.bitnameOf mb.bitnum = .ok n := by
  have hfind := getitem_str_ok_inv m n mb hn
  rw [dictFind_bits_str nm defs m hm n] at hfind
  obtain ⟨e, hef, hemk⟩ := map_mkOf_eq_some hfind
  have hename : e.bitname = n := by simpa using List.find?_some hef
  have hebit : e.bitnum = mb.bitnum := by rw [← hemk]; rfl
  have hmem : e ∈ defs.reverse := List.mem_of_find?_eq_some hef
  constructor
  · unfold BitMask.bitnumOf
    rw [hn]
    rfl
  · have hrevnodup : (defs.reverse.map (fun e => e.bitnum)).Nodup := by
      rw [List.map_reverse, List.nodup_reverse]
      exact hnums
    have hsome : ((defs.reverse.find? (fun x => x.bitnum = mb.bitnum))).isSome := by
      rw [List.find?_isSome]
      exact ⟨e, hmem, by simp [hebit]⟩
    cases hf : defs.reverse.find? (fun x => x.bitnum = mb.bitnum) with
    | none => rw [hf] at hsome; simp at hsome
    | some e2 =>
      have he2mem : e2 ∈ defs.reverse := List.mem_of_find?_eq_some hf
      have he2bit : e2.bitnum = mb.bitnum := by simpa using List.find?_some hf
      have he2e : e2 = e :=
        List.inj_on_of_nodup_map hrevnodup he2mem hmem (by rw [he2bit, hebit])
      unfold BitMask.bitnameOf BitMask.getitem
      rw [dictFind_bits_num nm defs m hm mb.bitnum, hf, he2e]
      simp [mkOf, hename]
      rfl

theorem claim_C6_witness :
    ccdmaskReg.bitnumOf "COSMIC" = .ok 4 ∧
    ccdmaskReg.bitnameOf 4 = .ok "COSMIC" :=
  claim_C6_name_number_roundtrip "ccdmask" ccdmaskDefs ccdmaskReg "COSMIC"
    ⟨16, "COSMIC", 4, 16, "Cosmic ray", []⟩
    rfl (by decide) (by decide) rfl

/-- C9: in a registry whose entries have pairwise-distinct bit positions,
the string-key lookup of a registered name and the integer-key lookup of
its bit number return the identical definition. -/
theorem claim_C9_dual_key_equivalence (nm : String) (defs : List RawEntry)
    (m : BitMask) (n : String) (mb : MaskBit)
    (hm : BitMask.init nm [(nm, defs)] = .ok m)
    (hnums : (defs.map (fun e => e.bitnum)).Nodup)
    (hn : m.getitem (.str n) = .ok mb) :
    m.getitem (.num mb.bitnum) = .ok mb := by
  have hfind := getitem_str_ok_inv m n mb hn
  rw [dictFind_bits_str nm defs m hm n] at hfind
  obtain ⟨e, hef, hemk⟩ := map_mkOf_eq_some hfind
  have hebit : e.bitnum = mb.bitnum := by rw [← hemk]; rfl
  have hmem : e ∈ defs.reverse := List.mem_of_find?_eq_some hef
  have hrevnodup : (defs.reverse.map (fun e => e.bitnum)).Nodup := by
    rw [List.map_reverse, List.nodup_reverse]
    exact hnums
  have hsome : ((defs.reverse.find? (fun x => x.bitnum = mb.bitnum))).isSome := by
    rw [List.find?_isSome]
    exact ⟨e, hmem, by simp [hebit]⟩
  cases hf : defs.reverse.find? (fun x => x.bitnum = mb.bitnum) with
  | none => rw [hf] at hsome; simp at hsome
  | some e2 =>
    have he2mem : e2 ∈ defs.reverse := List.mem_of_find?_eq_some hf
    have he2bit : e2.bitnum = mb.bitnum := by simpa using List.find?_some hf
    have he2e : e2 = e :=
      List.inj_on_of_nodup_map hrevnodup he2mem hmem (by rw [he2bit, hebit])
    unfold BitMask.getitem
    rw [dictFind_bits_num nm defs m hm mb.bitnum, hf, he2e]
    simp [hemk]

theorem claim_C9_witness :
    ccdmaskReg.getitem (.num 4)
      = .ok ⟨16, "COSMIC", 4, 16, "Cosmic ray", []⟩ :=
  claim_C9_dual_key_equivalence "ccdmask" ccdmaskDefs ccdmaskReg "COSMIC"
    ⟨16, "COSMIC", 4, 16, "Cosmic ray", []⟩
    rfl (by decide) rfl

/-- C8: with the mask argument omitted, `names` lists the names of all
registered bits in ascending bit-number order — the sorted enumeration of
the definition list — and the result is the same for any reordering of
the construction input. -/
theorem claim_C8_names_enumeration (nm : String) (defs defs' : List RawEntry)
    (m m' : BitMask)
    (hm : BitMask.init nm [(nm, defs)] = .ok m)
    (hm' : BitMask.init nm [(nm, defs')] = .ok m')
    (hperm : defs.Perm defs')
    (hnums : (defs.map (fun e => e.bitnum)).Nodup) :
    m.names none
      = (List.insertionSort (· ≤ ·) (defs.map (fun e => e.bitnum))).map
          (nameAt defs)
    ∧ m'.names none = m.names none := by
  have h1 := names_none_char nm defs m hm hnums
  have hnums' : (defs'.map (fun e => e.bitnum)).Nodup :=
    ((hperm.map _).nodup_iff).mp hnums
  have h2 := names_none_char nm defs' m' hm' hnums'
  refine ⟨h1, ?_⟩
  rw [h1, h2, names_none_perm defs defs' hperm hnums]

/-- The ccdmask registry built from the reversed entry list, used to check
order independence of the enumeration. -/
def ccdmaskRegRev : BitMask :=
  ((BitMask.init "ccdmask" [("ccdmask", ccdmaskDefs.reverse)]).toOption).getD
    ⟨"", []⟩

theorem claim_C8_witness :
    ccdmaskReg.names none
      = (List.insertionSort (· ≤ ·) (ccdmaskDefs.map (fun e => e.bitnum))).map
          (nameAt ccdmaskDefs)
    ∧ ccdmaskRegRev.names none = ccdmaskReg.names none :=
  claim_C8_names_enumeration "ccdmask" ccdmaskDefs ccdmaskDefs.reverse
    ccdmaskReg ccdmaskRegRev rfl rfl
    (List.reverse_perm ccdmaskDefs).symm (by decide)

theorem namesLoop_unfold (d : List (BitsKey × MaskBit)) (msk b : Nat) :
    namesLoop d msk b =
      if b ^ 2 ≤ msk then
        (if (2 ^ b).land msk ≠ 0 then
          [match dictFind d (.num b) with
           | some mb => mb.name
           | none => "UNKNOWN" ++ toString b]
         else []) ++ namesLoop d msk (b + 1)
      else [] := by
  rw [namesLoop.eq_def]
  split <;> rfl

/-- C1: the decode loop of `names` is bounded by `bitnum**2 <= mask`, so
for mask 8 the scan stops before bit 3 although bit 3 is set in 8 and is
registered (SATURATED): the code returns the empty list where the spec
requires `[SATURATED]`.  The conjuncts exhibit the divergence: decode of
mask 8 yields no names, yet bit 3 is registered and set in 8. -/
theorem claim_C1_names_decode_bug :
    (BitMask.init "ccdmask" ccdmaskTable).map (fun m => m.names (some 8))
      = Except.ok ([] : List String) ∧
    (BitMask.init "ccdmask" ccdmaskTable).map (fun m => m.bitnameOf 3)
      = Except.ok (Except.ok "SATURATED") ∧
    Nat.land (2 ^ 3) 8 ≠ 0 := by
  refine ⟨?_, rfl, by decide⟩
  have hinit : BitMask.init "ccdmask" ccdmaskTable = Except.ok ccdmaskReg := rfl
  rw [hinit]
  show Except.ok (ccdmaskReg.names (some 8)) = Except.ok []
  have hloop : ccdmaskReg.names (some 8) = [] := by
    show namesLoop ccdmaskReg._bits 8 0 = []
    rw [namesLoop_unfold]
    norm_num
    rw [namesLoop_unfold]
    norm_num
    rw [namesLoop_unfold]
    norm_num
    rw [namesLoop_unfold]
    norm_num
    decide
  rw [hloop]


/-- C3 (amended): for every registry built from entries with distinct
names and distinct bit positions whose strings are free of the
serialization delimiter characters (newline anywhere; the comma in names;
the double quote in comments; the apostrophe and comma in extra keys and
values), parsing the serialized textual form with the definition-table
loader and constructing a registry from the parsed table succeeds and
yields a registry with the same name enumeration and, for every name key,
the identical definition (hence the same mask value, comment and extra
attributes). -/
theorem claim_C3_serialization_roundtrip (nm : String)
    (defs : List RawEntry) (m : BitMask)
    (hm : BitMask.init nm [(nm, defs)] = .ok m)
    (hnm : ('\n' : Char) ∉ nm.data)
    (hclean : ∀ e ∈ defs, cleanEntry e)
    (hnames : (defs.map (fun e => e.bitname)).Nodup)
    (hnums : (defs.map (fun e => e.bitnum)).Nodup) :
    ∃ tbl m', parse m.reprStr = some tbl ∧ BitMask.init nm tbl = .ok m' ∧
      m'.names none = m.names none ∧
      ∀ s, m'.getitem (.str s) = m.getitem (.str s) := by
  have hparse := parse_reprStr nm defs m hm hnm hnums hclean
  have hokdefs : ∀ e ∈ defs, entryOk e := (init_single_ok nm defs m hm).2.2.2
  have hmapeq : ((defs.map (fun e => e.bitnum)).map
        (fun b => rawOf (mkOf (eDefAt defs b))))
      = defs.map (fun e => rawOf (mkOf e)) := by
    rw [List.map_map]
    refine List.map_congr_left ?_
    intro e he
    show rawOf (mkOf (eDefAt defs e.bitnum)) = rawOf (mkOf e)
    rw [eDefAt_bitnum defs hnums e he]
  have hEperm : ((List.insertionSort (· ≤ ·) (defs.map (fun e => e.bitnum))).map
        (fun b => rawOf (mkOf (eDefAt defs b)))).Perm
      (defs.map (fun e => rawOf (mkOf e))) := by
    have hp := (List.perm_insertionSort (· ≤ ·)
      (defs.map (fun e => e.bitnum))).map
        (fun b => rawOf (mkOf (eDefAt defs b)))
    rw [hmapeq] at hp
    exact hp
  have hokE : ∀ x ∈ (List.insertionSort (· ≤ ·)
      (defs.map (fun e => e.bitnum))).map
        (fun b => rawOf (mkOf (eDefAt defs b))), entryOk x := by
    intro x hx
    obtain ⟨e, he, hex⟩ := List.mem_map.mp (hEperm.subset hx)
    rw [← hex]
    exact entryOk_rawOf_mkOf e (hokdefs e he)
  have hinit' := init_single_ok_of_valid nm _ hokE
  refine ⟨_, _, hparse, hinit', ?_, ?_⟩
  · -- names enumeration is preserved
    have hbitnumeq : ((defs.map (fun e => rawOf (mkOf e))).map
          (fun e => e.bitnum))
        = defs.map (fun e => e.bitnum) := by
      rw [List.map_map]
      rfl
    have hEnums : (((List.insertionSort (· ≤ ·)
        (defs.map (fun e => e.bitnum))).map
          (fun b => rawOf (mkOf (eDefAt defs b)))).map
            (fun e => e.bitnum)).Nodup := by
      have hp2 := hEperm.map (fun e : RawEntry => e.bitnum)
      rw [hbitnumeq] at hp2
      exact hp2.nodup_iff.mpr hnums
    have hn1 := names_none_char nm _ _ hinit' hEnums
    have hn2 := names_none_char nm defs m hm hnums
    rw [hn1, hn2]
    rw [names_none_perm _ _ hEperm hEnums]
    rw [hbitnumeq]
    refine List.map_congr_left ?_
    intro b _
    unfold nameAt
    rw [List.find?_map]
    rw [show ((fun (e : RawEntry) => decide (e.bitnum = b))
        ∘ (fun e => rawOf (mkOf e)))
      = (fun (e : RawEntry) => decide (e.bitnum = b)) from rfl]
    cases defs.find? (fun e => e.bitnum = b) with
    | none => rfl
    | some e => rfl
  · -- string-key lookups are identical
    intro s
    unfold BitMask.getitem
    have hEnames : (((List.insertionSort (· ≤ ·)
        (defs.map (fun e => e.bitnum))).map
          (fun b => rawOf (mkOf (eDefAt defs b)))).map
            (fun e => e.bitname)).Nodup := by
      have hp2 := hEperm.map (fun e : RawEntry => e.bitname)
      rw [show ((defs.map (fun e => rawOf (mkOf e))).map
          (fun e => e.bitname)) = defs.map (fun e => e.bitname) from by
        rw [List.map_map]; rfl] at hp2
      exact hp2.nodup_iff.mpr hnames
    have hfindE : dictFind (insertFold []
        ((List.insertionSort (· ≤ ·) (defs.map (fun e => e.bitnum))).map
          (fun b => rawOf (mkOf (eDefAt defs b))))) (.str s)
        = (((List.insertionSort (· ≤ ·) (defs.map (fun e => e.bitnum))).map
            (fun b => rawOf (mkOf (eDefAt defs b)))).find?
              (fun e => e.bitname = s)).map mkOf := by
      rw [dictFind_insertFold_str]
      rw [show dictFind ([] : List (BitsKey × MaskBit)) (.str s) = none
        from rfl, Option.or_none]
      rw [find?_reverse_of_nodup (fun e : RawEntry => e.bitname) hEnames s]
    have hfindm : dictFind m._bits (.str s)
        = (defs.find? (fun e => e.bitname = s)).map mkOf := by
      rw [dictFind_bits_str nm defs m hm s]
      rw [find?_reverse_of_nodup (fun e : RawEntry => e.bitname) hnames s]
    have h1 := find?_keyEq_of_perm (fun e : RawEntry => e.bitname)
      hEperm hEnames s
    have h2 : ((defs.map (fun e => rawOf (mkOf e))).find?
          (fun e => e.bitname = s))
        = (defs.find? (fun e => e.bitname = s)).map
            (fun e => rawOf (mkOf e)) := by
      rw [List.find?_map]
      rfl
    show (match dictFind (insertFold [] _) (.str s) with
      | some mb => Except.ok mb
      | none => Except.error PyError.keyError)
      = (match dictFind m._bits (.str s) with
      | some mb => Except.ok mb
      | none => Except.error PyError.keyError)
    rw [hfindE, hfindm, h1, h2]
    cases defs.find? (fun e => e.bitname = s) with
    | none => rfl
    | some e =>
      show (match some (mkOf (rawOf (mkOf e))) with
        | some mb => Except.ok mb
        | none => Except.error PyError.keyError)
        = _
      rw [mkOf_rawOf_mkOf e]
      rfl

theorem claim_C3_witness :
    ∃ tbl m', parse ccdmaskReg.reprStr = some tbl ∧
      BitMask.init "ccdmask" tbl = .ok m' ∧
      m'.names none = ccdmaskReg.names none ∧
      ∀ s, m'.getitem (.str s) = ccdmaskReg.getitem (.str s) :=
  claim_C3_serialization_roundtrip "ccdmask" ccdmaskDefs ccdmaskReg
    rfl (by decide) (by decide) (by decide) (by decide)

/-- A registry whose single comment contains a double quote: its
serialized form is not re-parsable, so the round trip of the claim fails
on it. -/
def quoteDefs : List RawEntry := [⟨"BAD", 0, "say \"hi\" now", none⟩]

/-- The registry built from `quoteDefs` (construction succeeds). -/
def quoteReg : BitMask :=
  ((BitMask.init "ccd" [("ccd", quoteDefs)]).toOption).getD ⟨"", []⟩

/-- C3 counterexample: for the registry whose comment contains a double
quote, construction succeeds but the serialized form does not parse back
at all (the quote terminates the comment field early and the remainder is
not well formed), so no registry with equal data can be obtained by the
round trip the claim asserts for every registry. -/
theorem claim_C3_counterexample :
    BitMask.init "ccd" [("ccd", quoteDefs)] = .ok quoteReg ∧
    parse quoteReg.reprStr = none := by
  refine ⟨rfl, ?_⟩
  have h0 : natToChars 0 = ['0'] := by
    rw [natToChars.eq_def]
    rfl
  have h1 : quoteReg.reprStr = pyJoin "\n" ["ccd" ++ ":",
      reprLine ⟨1, "BAD", 0, 1, "say \"hi\" now", []⟩] := rfl
  have h2 : reprLine ⟨1, "BAD", 0, 1, "say \"hi\" now", []⟩
      = "  - [" ++ padRight ("BAD" ++ ",") 16 ++ " "
        ++ padLeft (String.mk (natToChars 0)) 2 ++ ", \""
        ++ "say \"hi\" now" ++ "\"" ++ "]" := rfl
  rw [h1, h2, h0]
  rfl
end Desiutil
